import Mathlib

/-!
# std2::Vector (include/std/vector.hh)

A shallow embedding of the dynamic array of `include/std/vector.hh`.

Conventions of the embedding.

* `size_t` is 64 bits wide.  The fields `m_Size`, `m_Capacity` and every index are
  natural numbers, and each arithmetic expression of the source on them
  (`m_Size++`, `m_Size--`, `m_Capacity << 1`, `i - 1`, `size * sizeof(T)`) is reduced
  modulo `2 ^ 64` explicitly.
* What the code needs of the element type `T` and of the allocator is a `Platform`:
  `sizeof(T)`, the largest byte count `::operator new` grants, and the value the move
  constructor and the move assignment of `T` leave in their argument.
* `::operator new(size * sizeof(T))` computes its byte count in `size_t`, throws
  `std::bad_alloc` (`Fault.BadAlloc`) when the allocator does not grant that many bytes,
  and otherwise returns a block with as many whole slots as the bytes hold.  That number
  is kept in the field `m_Extent`, next to the pointer `m_Data`; it is `m_Capacity` only
  when the byte count did not wrap.
* The storage block `m_Data` is a map from slot index to slot content; a slot is
  `none` while it is raw memory and `some a` once a value has been stored in it.
* Every slot access of the source goes through `readSlot` / `writeSlot`, which
  fault with `Fault.OutOfBlock` outside the block: an operation returning
  `Except.ok` performed no access outside its storage.
* `~T()` leaves the bits of a slot in place; copy-assignment, placement construction
  and `memory::Move` store a value into a slot; `Move` of a slot or of an argument
  leaves `movedFrom` of the value behind.  The relocation of `SetCapacity` moves out of
  a block that is released right after, so nothing is recorded there.
* An argument passed by reference is a `Ref`: an object outside the storage block, or
  a slot of the block as it is at the call.  Reading a slot reference after `Grow` has
  released that block is `Fault.Dangling`.
* `STD2_VECTOR_SAFE` is the boolean parameter `safe` of `Reserve`, `At`, `Erase`.
* The bodies of `Erase` and `Reserve` are given a second time statement by statement
  (`EraseBody`, `ReserveBody`), with the state in which a run stops; they are proved to
  report what `Erase` and `Reserve` report.
-/

namespace std2

/-! ## size_t arithmetic -/

/-- The number of values of a 64-bit `size_t`. -/
def SIZE_RANGE : Nat := 2 ^ 64

/-- The source's `n++` on a `size_t`. -/
def incr (n : Nat) : Nat := (n + 1) % 2 ^ 64

/-- The source's `n--` and `n - 1` on a `size_t`. -/
def decr (n : Nat) : Nat := (n + 2 ^ 64 - 1) % 2 ^ 64

/-- The source's `n << 1` on a `size_t`. -/
def shl1 (n : Nat) : Nat := (n * 2) % 2 ^ 64

/-! ## Faults and storage -/

/-- The ways an operation can fail to return. -/
inductive Fault where
  /-- An `Assert` of the checked configuration failed. -/
  | AssertFailed
  /-- A slot outside the storage block was accessed. -/
  | OutOfBlock
  /-- The value of a raw slot was read. -/
  | Uninitialised
  /-- The allocator refused a request: `::operator new` threw `std::bad_alloc`. -/
  | BadAlloc
  /-- A reference into a block that has been released was read. -/
  | Dangling
  deriving DecidableEq, Repr

/-- The slots of a storage block, by slot index. -/
abbrev Slots (α : Type) := Nat → Option α

/-- A fresh block as `operator new` returns it: every slot raw. -/
def rawBlock (α : Type) : Slots α := fun _ => none

/-- Access to slot `i` of a block of `cap` slots, for reading. -/
def readSlot {α : Type} (cap : Nat) (d : Slots α) (i : Nat) : Except Fault (Option α) :=
  if i < cap then .ok (d i) else .error .OutOfBlock

/-- Storing `c` into slot `i` of a block of `cap` slots. -/
def writeSlot {α : Type} (cap : Nat) (d : Slots α) (i : Nat) (c : Option α) :
    Except Fault (Slots α) :=
  if i < cap then .ok (fun k => if k = i then c else d k) else .error .OutOfBlock

/-- The loop `for (size_t i = start; i < start + n; i++) body`, as `n` iterations
from `start`; `forLoop body (hi - lo) lo` is `for (i = lo; i < hi; i++) body`. -/
def forLoop {σ : Type} (body : Nat → σ → Except Fault σ) : Nat → Nat → σ → Except Fault σ
  | 0, _, s => .ok s
  | n + 1, i, s => body i s >>= forLoop body n (i + 1)

/-! ## The element type and the allocator -/

/-- What the code depends on outside `vector.hh`: `sizeofT` is `sizeof(T)`, `maxAlloc`
the largest byte count `::operator new` grants, `movedFrom x` the value a move out of an
object holding `x` leaves in it.  A `T` has at least one byte, one `T` can be allocated,
and no request above `PTRDIFF_MAX` is granted. -/
structure Platform (α : Type) where
  sizeofT : Nat
  maxAlloc : Nat
  movedFrom : α → α
  sizeofT_pos : 1 ≤ sizeofT
  one_fits : sizeofT ≤ maxAlloc
  maxAlloc_lt : maxAlloc < 2 ^ 63

/-- The expression `(T *)::operator new(count * sizeof(T))`: the byte count is computed
in `size_t`; the result is the number of whole slots of the block, or `BadAlloc`. -/
def alloc {α : Type} (t : Platform α) (count : Nat) : Except Fault Nat :=
  if (count * t.sizeofT) % 2 ^ 64 ≤ t.maxAlloc then
    .ok ((count * t.sizeofT) % 2 ^ 64 / t.sizeofT)
  else .error .BadAlloc

/-- An 8-byte trivially copyable element type, such as `uint64_t`, with an allocator
that grants up to `2 ^ 40` bytes. -/
def Platform.u64 : Platform Nat where
  sizeofT := 8
  maxAlloc := 2 ^ 40
  movedFrom := fun x => x
  sizeofT_pos := by decide
  one_fits := by decide
  maxAlloc_lt := by decide

/-- A 24-byte sequence type whose moves leave the empty sequence behind, such as a
string, with an allocator that grants up to `2 ^ 40` bytes. -/
def Platform.seq : Platform (List Nat) where
  sizeofT := 24
  maxAlloc := 2 ^ 40
  movedFrom := fun _ => []
  sizeofT_pos := by decide
  one_fits := by decide
  maxAlloc_lt := by decide

/-! ## The vector -/

/-- The data members of `Vector<T>`; `m_Extent` is the number of slots of the block
`m_Data` points to, which the pointer of the source does not carry. -/
structure Vector (α : Type) where
  m_Size : Nat
  m_Capacity : Nat
  m_Data : Slots α
  m_Extent : Nat

/-- What a reference argument designates: an object outside the storage block, holding
`x`, or slot `i` of the vector's block as it is at the call. -/
inductive Ref (α : Type) where
  /-- A reference to an object outside the storage block. -/
  | outside (x : α)
  /-- A reference to slot `i` of the block, such as `v[i]`. -/
  | slot (i : Nat)

namespace Vector

variable {α : Type}

/-- The default constructor `Vector() = default`: the default member initializers; the
block of `sizeof(T)` bytes has one slot and is granted on every `Platform`. -/
def new : Vector α :=
  { m_Size := 0, m_Capacity := 1, m_Data := rawBlock α, m_Extent := 1 }

/-- The method `Capacity()`. -/
def Capacity (v : Vector α) : Nat := v.m_Capacity

/-- The method `Size()`. -/
def Size (v : Vector α) : Nat := v.m_Size

/-- The private method `SetCapacity(size)`: a fresh block for `size * sizeof(T)` bytes,
the `m_Size` first slots moved into it in index order. -/
def SetCapacity (t : Platform α) (v : Vector α) (size : Nat) : Except Fault (Vector α) := do
  let extent ← alloc t size
  let newData ← forLoop
    (fun i nd => do
      let c ← readSlot v.m_Extent v.m_Data i
      writeSlot extent nd i c)
    (v.m_Size - 0) 0 (rawBlock α)
  pure { v with m_Data := newData, m_Extent := extent, m_Capacity := size }

/-- The private method `Grow()`. -/
def Grow (t : Platform α) (v : Vector α) : Except Fault (Vector α) :=
  SetCapacity t v (shl1 v.m_Capacity)

/-- The constructor `Vector(size, value)`. -/
def sized (t : Platform α) (size : Nat) (value : α) : Except Fault (Vector α) := do
  let extent ← alloc t size
  let d ← forLoop (fun i d => writeSlot extent d i (some value)) (size - 0) 0 (rawBlock α)
  pure { m_Size := size, m_Capacity := size, m_Data := d, m_Extent := extent }

/-- The method `Reserve(size)`. -/
def Reserve (t : Platform α) (safe : Bool) (v : Vector α) (size : Nat) :
    Except Fault (Vector α) :=
  if safe && !(decide (size > v.m_Capacity)) then .error .AssertFailed
  else SetCapacity t v size

/-- The value a reference to slot `i` of the vector's block reads. -/
def deref (v : Vector α) (i : Nat) : Except Fault α := do
  let c ← readSlot v.m_Extent v.m_Data i
  match c with
  | some a => pure a
  | none => .error .Uninitialised

/-- The value read through a reference argument once `Grow` has run (`grew`) or not:
the block a slot reference points into has then been released. -/
def readRef (grew : Bool) (v : Vector α) : Ref α → Except Fault α
  | .outside x => .ok x
  | .slot i => if grew then .error .Dangling else deref v i

/-- The overload `Push(const T &value)`; the second component is what the returned
reference `value` reads. -/
def Push (t : Platform α) (v : Vector α) (value : Ref α) : Except Fault (Vector α × α) := do
  let v1 ← if v.m_Size = v.m_Capacity then Grow t v else pure v
  let x ← readRef (decide (v.m_Size = v.m_Capacity)) v1 value
  let d ← writeSlot v1.m_Extent v1.m_Data v1.m_Size (some x)
  pure ({ v1 with m_Data := d, m_Size := incr v1.m_Size }, x)

/-- The state of the argument after `T(Move(value))`: an object outside the block is
not part of the state, a slot of the block is left moved-from. -/
def moveOut (t : Platform α) (cap : Nat) (d : Slots α) (x : α) : Ref α → Except Fault (Slots α)
  | .outside _ => .ok d
  | .slot i => writeSlot cap d i (some (t.movedFrom x))

/-- The overload `Push(T &&value)`: the argument is moved from; the second component is
what the returned reference `value` reads, the moved-from argument. -/
def PushMove (t : Platform α) (v : Vector α) (value : Ref α) :
    Except Fault (Vector α × α) := do
  let v1 ← if v.m_Size = v.m_Capacity then Grow t v else pure v
  let x ← readRef (decide (v.m_Size = v.m_Capacity)) v1 value
  let d ← writeSlot v1.m_Extent v1.m_Data v1.m_Size (some x)
  let d' ← moveOut t v1.m_Extent d x value
  pure ({ v1 with m_Data := d', m_Size := incr v1.m_Size }, t.movedFrom x)

/-- The value `T(Forward<Arguments>(arguments)...)` constructs: from arguments outside
the block through `ctor`, from a reference to a slot by copy. -/
def construct {β : Type} (ctor : β → α) (grew : Bool) (v : Vector α) : Ref β → Except Fault α
  | .outside a => .ok (ctor a)
  | .slot i => if grew then .error .Dangling else deref v i

/-- The method `Emplace(arguments...)`, with `T`'s constructor as `ctor`.  The second
component is the slot index the returned reference `m_Data[m_Size - 1]` designates. -/
def Emplace {β : Type} (t : Platform α) (ctor : β → α) (v : Vector α) (arguments : Ref β) :
    Except Fault (Vector α × Nat) := do
  let v1 ← if v.m_Size = v.m_Capacity then Grow t v else pure v
  let x ← construct ctor (decide (v.m_Size = v.m_Capacity)) v1 arguments
  let d ← writeSlot v1.m_Extent v1.m_Data v1.m_Size (some x)
  let v2 : Vector α := { v1 with m_Data := d, m_Size := incr v1.m_Size }
  pure (v2, decr v2.m_Size)

/-- The method `At(i)` (both overloads), read through the returned reference. -/
def At (safe : Bool) (v : Vector α) (i : Nat) : Except Fault α :=
  if safe && !(decide (i < v.m_Size)) then .error .AssertFailed
  else deref v i

/-- The operator `operator[](i)`. -/
def index (safe : Bool) (v : Vector α) (i : Nat) : Except Fault α :=
  At safe v i

/-- Modelled from the spec: `memory::Move(dest, src, sizeof(T))` of `<std/cstdlib.hh>`,
which is not part of the source at hand; it "bulk-relocates the memory" of the slot
`src` "into the freed slot" `dest`, a raw copy of one slot. -/
def memoryMove (cap : Nat) (d : Slots α) (dest src : Nat) : Except Fault (Slots α) := do
  let c ← readSlot cap d src
  writeSlot cap d dest c

/-- One iteration `m_Data[i - 1] = Move(m_Data[i])` of the ordered erase: slot `i` is
read, slot `i - 1` takes its value, and slot `i` is left moved-from. -/
def shiftStep (t : Platform α) (cap : Nat) (i : Nat) (d : Slots α) :
    Except Fault (Slots α) := do
  let c ← readSlot cap d i
  let d1 ← writeSlot cap d (decr i) c
  writeSlot cap d1 i (c.map t.movedFrom)

/-- The method `Erase<fast>(index)`. -/
def Erase (t : Platform α) (safe fast : Bool) (v : Vector α) (index : Nat) :
    Except Fault (Vector α) := do
  if safe && !(decide (index < v.m_Size)) then .error .AssertFailed
  let m_Size := decr v.m_Size
  let _ ← readSlot v.m_Extent v.m_Data index
  if fast then
    let d ← memoryMove v.m_Extent v.m_Data index m_Size
    pure { v with m_Size := m_Size, m_Data := d }
  else
    let d ← forLoop (shiftStep t v.m_Extent) (m_Size - index) index v.m_Data
    pure { v with m_Size := m_Size, m_Data := d }

/-- The live contents: the values of the slots `0 .. m_Size - 1`, in index order. -/
def contents (v : Vector α) : List (Except Fault α) :=
  (List.range v.m_Size).map (deref v)

/-- The block was granted by the allocator with room for exactly `m_Capacity` slots: the
state every constructor and every `SetCapacity` leaves whose byte count did not wrap. -/
def Allocated (t : Platform α) (v : Vector α) : Prop :=
  v.m_Extent = v.m_Capacity ∧ v.m_Capacity * t.sizeofT ≤ t.maxAlloc

end Vector

/-! ## The traversal cursor -/

/-- The data members of `Vector<T>::Iterator`.  `m_Extent` is the number of slots of the
block `m_Data` points into; the source's pointer carries no such bound, it is kept here
so that a dereference is checked like every other slot access. -/
structure Iterator (α : Type) where
  m_Index : Nat
  m_Data : Slots α
  m_Extent : Nat

namespace Iterator

variable {α : Type}

/-- The operator `operator<`. -/
def lt (a other : Iterator α) : Bool := decide (a.m_Index < other.m_Index)

/-- The operator `operator>`. -/
def gt (a other : Iterator α) : Bool := decide (a.m_Index > other.m_Index)

/-- The operator `operator!=`. -/
def ne (a other : Iterator α) : Bool := decide (a.m_Index ≠ other.m_Index)

/-- The operator `operator==`. -/
def eq (a other : Iterator α) : Bool := decide (a.m_Index = other.m_Index)

/-- The operator `operator*`, read through the returned reference. -/
def star (a : Iterator α) : Except Fault α := do
  let c ← readSlot a.m_Extent a.m_Data a.m_Index
  match c with
  | some x => pure x
  | none => .error .Uninitialised

/-- The pre-increment `operator++()`. -/
def next (a : Iterator α) : Iterator α :=
  { a with m_Index := incr a.m_Index }

/-- The post-increment `operator++(int)`: the returned copy, then the advanced cursor. -/
def postIncr (a : Iterator α) : Iterator α × Iterator α :=
  ({ m_Index := a.m_Index, m_Data := a.m_Data, m_Extent := a.m_Extent },
   { a with m_Index := incr a.m_Index })

end Iterator

namespace Vector

variable {α : Type}

/-- The method `begin()`. -/
def begin (v : Vector α) : Iterator α :=
  { m_Index := 0, m_Data := v.m_Data, m_Extent := v.m_Extent }

/-- The method `end()`. -/
def end_ (v : Vector α) : Iterator α :=
  { m_Index := v.m_Size, m_Data := v.m_Data, m_Extent := v.m_Extent }

/-- The loop `for (it = first; !(it == last); ++it) visit(*it)`, bounded by `fuel`
increments: the outcomes of the dereferences in order, or `none` when the fuel ran out
before `it == last`. -/
def traverse : Nat → Iterator α → Iterator α → Option (List (Except Fault α))
  | 0, it, last => if it.eq last then some [] else none
  | fuel + 1, it, last =>
    if it.eq last then some []
    else (traverse fuel it.next last).map (fun rest => it.star :: rest)

end Vector

/-! ## Sequences of calls -/

/-- A call of one of the mutating methods, with its arguments. -/
inductive Call (α β : Type) where
  /-- The call `Push(const T &)`. -/
  | push (value : Ref α)
  /-- The call `Push(T &&)`. -/
  | pushMove (value : Ref α)
  /-- The call `Emplace(arguments...)`. -/
  | emplace (arguments : Ref β)
  /-- The call `Reserve(size)`. -/
  | reserve (size : Nat)
  /-- The call `Erase<fast>(index)`. -/
  | erase (fast : Bool) (index : Nat)

namespace Call

variable {α β : Type}

/-- Whether the call is one of the two `Push` overloads. -/
def isPush : Call α β → Bool
  | push _ => true
  | pushMove _ => true
  | _ => false

/-- Whether the call appends an element (`Push` or `Emplace`). -/
def isInsert : Call α β → Bool
  | push _ => true
  | pushMove _ => true
  | emplace _ => true
  | _ => false

/-- Whether no argument of the call is a reference into the storage block. -/
def byValue : Call α β → Bool
  | push (.slot _) => false
  | pushMove (.slot _) => false
  | emplace (.slot _) => false
  | _ => true

/-- The state a call leaves, in the configuration `safe`, with `T`'s constructor `ctor`. -/
def run (t : Platform α) (safe : Bool) (ctor : β → α) (v : Vector α) :
    Call α β → Except Fault (Vector α)
  | push value => (Vector.Push t v value).map Prod.fst
  | pushMove value => (Vector.PushMove t v value).map Prod.fst
  | emplace arguments => (Vector.Emplace t ctor v arguments).map Prod.fst
  | reserve size => Vector.Reserve t safe v size
  | erase fast index => Vector.Erase t safe fast v index

/-- The preconditions the methods document: `Reserve` must grow the capacity, `Erase`
needs a live index. -/
def Precondition (v : Vector α) : Call α β → Prop
  | reserve size => v.m_Capacity < size
  | erase _ index => index < v.m_Size
  | _ => True

/-- The calls that are sure to return on a state whose block has `m_Capacity` slots:
an insertion with room left or with a doubled block the allocator grants; a `Reserve`
that grows the capacity to a block the allocator grants; an `Erase` of a live index,
and for the ordered policy, which stores into slot `i - 1` from `i = index` on, of an
index that is at least 1 or the last one. -/
def InRange (t : Platform α) (v : Vector α) : Call α β → Prop
  | push _ => v.m_Size < v.m_Capacity ∨ 2 * v.m_Capacity * t.sizeofT ≤ t.maxAlloc
  | pushMove _ => v.m_Size < v.m_Capacity ∨ 2 * v.m_Capacity * t.sizeofT ≤ t.maxAlloc
  | emplace _ => v.m_Size < v.m_Capacity ∨ 2 * v.m_Capacity * t.sizeofT ≤ t.maxAlloc
  | reserve size => v.m_Capacity < size ∧ size * t.sizeofT ≤ t.maxAlloc
  | erase fast index =>
    index < v.m_Size ∧ (fast = true ∨ 1 ≤ index ∨ index + 1 = v.m_Size)

/-- The admissible calls: in range, and with no argument that is a reference into the
storage block. -/
def Admissible (t : Platform α) (v : Vector α) (c : Call α β) : Prop :=
  c.byValue = true ∧ c.InRange t v

/-- Being in range is decidable. -/
instance decInRange (t : Platform α) (v : Vector α) : (c : Call α β) → Decidable (c.InRange t v)
  | push _ =>
    inferInstanceAs
      (Decidable (v.m_Size < v.m_Capacity ∨ 2 * v.m_Capacity * t.sizeofT ≤ t.maxAlloc))
  | pushMove _ =>
    inferInstanceAs
      (Decidable (v.m_Size < v.m_Capacity ∨ 2 * v.m_Capacity * t.sizeofT ≤ t.maxAlloc))
  | emplace _ =>
    inferInstanceAs
      (Decidable (v.m_Size < v.m_Capacity ∨ 2 * v.m_Capacity * t.sizeofT ≤ t.maxAlloc))
  | reserve size =>
    inferInstanceAs (Decidable (v.m_Capacity < size ∧ size * t.sizeofT ≤ t.maxAlloc))
  | erase fast index =>
    inferInstanceAs
      (Decidable (index < v.m_Size ∧ (fast = true ∨ 1 ≤ index ∨ index + 1 = v.m_Size)))

/-- Admissibility of a call on a state is decidable. -/
instance decAdmissible (t : Platform α) (v : Vector α) (c : Call α β) :
    Decidable (c.Admissible t v) :=
  inferInstanceAs (Decidable (c.byValue = true ∧ c.InRange t v))

/-- Meeting the documented precondition is decidable. -/
instance decPrecondition (v : Vector α) : (c : Call α β) → Decidable (c.Precondition v)
  | push _ => isTrue trivial
  | pushMove _ => isTrue trivial
  | emplace _ => isTrue trivial
  | reserve size => inferInstanceAs (Decidable (v.m_Capacity < size))
  | erase _ index => inferInstanceAs (Decidable (index < v.m_Size))

end Call

/-- The calls of a list, one after the other, stopping at the first fault. -/
def runCalls {α β : Type} (t : Platform α) (safe : Bool) (ctor : β → α) :
    Vector α → List (Call α β) → Except Fault (Vector α)
  | v, [] => .ok v
  | v, c :: cs => c.run t safe ctor v >>= fun v' => runCalls t safe ctor v' cs

/-- Every call of the list meets its documented precondition on the state it is applied
to. -/
def PreconditionSeq {α β : Type} (t : Platform α) (safe : Bool) (ctor : β → α) :
    Vector α → List (Call α β) → Prop
  | _, [] => True
  | v, c :: cs =>
    c.Precondition v ∧
      match c.run t safe ctor v with
      | .ok v' => PreconditionSeq t safe ctor v' cs
      | .error _ => True

/-- Every call of the list is admissible on the state it is applied to. -/
def AdmissibleSeq {α β : Type} (t : Platform α) (safe : Bool) (ctor : β → α) :
    Vector α → List (Call α β) → Prop
  | _, [] => True
  | v, c :: cs =>
    c.Admissible t v ∧
      match c.run t safe ctor v with
      | .ok v' => AdmissibleSeq t safe ctor v' cs
      | .error _ => True

/-- Meeting the preconditions along a sequence of calls is decidable. -/
instance decPreconditionSeq {α β : Type} (t : Platform α) (safe : Bool) (ctor : β → α) :
    (v : Vector α) → (cs : List (Call α β)) → Decidable (PreconditionSeq t safe ctor v cs)
  | _, [] => isTrue trivial
  | v, c :: cs =>
    have rest : Decidable
        (match c.run t safe ctor v with
          | .ok v' => PreconditionSeq t safe ctor v' cs
          | .error _ => True) :=
      match c.run t safe ctor v with
      | .ok v' => decPreconditionSeq t safe ctor v' cs
      | .error _ => isTrue trivial
    @instDecidableAnd _ _ (Call.decPrecondition v c) rest

/-- Admissibility of a sequence of calls on a state is decidable. -/
instance decAdmissibleSeq {α β : Type} (t : Platform α) (safe : Bool) (ctor : β → α) :
    (v : Vector α) → (cs : List (Call α β)) → Decidable (AdmissibleSeq t safe ctor v cs)
  | _, [] => isTrue trivial
  | v, c :: cs =>
    have rest : Decidable
        (match c.run t safe ctor v with
          | .ok v' => AdmissibleSeq t safe ctor v' cs
          | .error _ => True) :=
      match c.run t safe ctor v with
      | .ok v' => decAdmissibleSeq t safe ctor v' cs
      | .error _ => isTrue trivial
    @instDecidableAnd _ _ (Call.decAdmissible t v c) rest

/-! ## Method bodies, statement by statement -/

/-- A statement of a method body. -/
abbrev Stmt (α : Type) := Vector α → Except Fault (Vector α)

/-- The statements of a body run in order: the state in which execution stopped, and the
fault that stopped it (`none` when every statement ran). -/
def execStmts {α : Type} : List (Stmt α) → Vector α → Vector α × Option Fault
  | [], v => (v, none)
  | s :: ss, v =>
    match s v with
    | .ok v' => execStmts ss v'
    | .error e => (v, some e)

/-- What a method reports for a run of its body: the final state, or the fault. -/
def outcome {α : Type} : Vector α × Option Fault → Except Fault (Vector α)
  | (v, none) => .ok v
  | (_, some e) => .error e

/-- The statement `Assert(cond)` under `#ifdef STD2_VECTOR_SAFE`. -/
def assertStmt {α : Type} (safe : Bool) (cond : Vector α → Bool) : Stmt α :=
  fun v => if safe && !(cond v) then .error .AssertFailed else .ok v

namespace Vector

variable {α : Type}

/-- The body of `Erase<fast>(index)`, one entry per statement of the source: the
assertion, `m_Size--`, the destructor call on slot `index`, and the relocation of the
chosen policy. -/
def EraseBody (t : Platform α) (safe fast : Bool) (index : Nat) : List (Stmt α) :=
  [ assertStmt safe (fun v => decide (index < v.m_Size)),
    fun v => .ok { v with m_Size := decr v.m_Size },
    fun v => (readSlot v.m_Extent v.m_Data index).map (fun _ => v),
    if fast then
      fun v => (memoryMove v.m_Extent v.m_Data index v.m_Size).map
        (fun d => { v with m_Data := d })
    else
      fun v => (forLoop (shiftStep t v.m_Extent) (v.m_Size - index) index v.m_Data).map
        (fun d => { v with m_Data := d }) ]

/-- The body of `Reserve(size)`: the assertion, then the call of `SetCapacity`. -/
def ReserveBody (t : Platform α) (safe : Bool) (size : Nat) : List (Stmt α) :=
  [ assertStmt safe (fun v => decide (size > v.m_Capacity)),
    fun v => SetCapacity t v size ]

/-- The destructor `~Vector()`: the slots on which `~T()` is run, in the order of the
calls. -/
def destructor (v : Vector α) : Except Fault (List Nat) :=
  forLoop
    (fun i destroyed =>
      (readSlot v.m_Extent v.m_Data i).map (fun _ => destroyed ++ [i]))
    (v.m_Size - 0) 0 []

/-- The slot indices the shift loop of the ordered erase accesses in `n` iterations from
`i`, in order: slot `i` is read (and left moved-from) and slot `i - 1` is written. -/
def shiftAccesses : Nat → Nat → List Nat
  | 0, _ => []
  | n + 1, i => i :: decr i :: shiftAccesses n (i + 1)

/-- The slot indices the ordered `Erase(index)` accesses after `m_Size--`, in order: the
destructor call on slot `index`, then the shift loop. -/
def EraseAccesses (v : Vector α) (index : Nat) : List Nat :=
  index :: shiftAccesses (decr v.m_Size - index) index

end Vector

namespace Call

variable {α β : Type}

/-- The number of placement constructions `new (&m_Data[k]) T(...)` in the body of the
call: one in `Push(T &&)` and in `Emplace`; `Push(const T &)` and the relocation of
`SetCapacity` assign instead. -/
def constructions : Call α β → Nat
  | push _ => 0
  | pushMove _ => 1
  | emplace _ => 1
  | reserve _ => 0
  | erase _ _ => 0

/-- The number of explicit destructor calls `m_Data[k].~T()` in the body of the call:
one in `Erase`. -/
def destructions : Call α β → Nat
  | erase _ _ => 1
  | _ => 0

end Call

/-- The lifetime of a vector: constructed as `start` (neither constructor constructs a
`T` in a slot, the sized one assigns), then the calls `cs`, then the destructor.  The
result is the number of constructions, the number of destructions, and the slots the
destructor destroyed. -/
def lifetime {α β : Type} (t : Platform α) (safe : Bool) (ctor : β → α) (start : Vector α)
    (cs : List (Call α β)) : Except Fault (Nat × Nat × List Nat) := do
  let v ← runCalls t safe ctor start cs
  let destroyed ← Vector.destructor v
  pure ((cs.map Call.constructions).sum,
    (cs.map Call.destructions).sum + destroyed.length, destroyed)

end std2

namespace std2

/-! ## Evaluation lemmas -/

section Lemmas

variable {α : Type}

theorem ok_bind {ε β γ : Type} (a : β) (f : β → Except ε γ) :
    (Except.ok a >>= f) = f a := rfl

theorem error_bind {ε β γ : Type} (e : ε) (f : β → Except ε γ) :
    ((Except.error e : Except ε β) >>= f) = Except.error e := rfl

/-- A sequence of two steps that returns: both steps returned. -/
theorem bind_eq_ok {ε β γ : Type} {m : Except ε β} {f : β → Except ε γ} {c : γ}
    (h : (m >>= f) = .ok c) : ∃ a, m = .ok a ∧ f a = .ok c := by
  cases m with
  | error e => cases h
  | ok a => exact ⟨a, rfl, h⟩

theorem map_eq_ok {ε β γ : Type} {m : Except ε β} {f : β → γ} {c : γ}
    (h : m.map f = .ok c) : ∃ a, m = .ok a ∧ f a = c := by
  cases m with
  | error e => cases h
  | ok a => exact ⟨a, rfl, Except.ok.inj h⟩

theorem readSlot_of_lt {cap i : Nat} (d : Slots α) (h : i < cap) :
    readSlot cap d i = .ok (d i) := by
  simp [readSlot, h]

theorem readSlot_of_ge {cap i : Nat} (d : Slots α) (h : cap ≤ i) :
    readSlot cap d i = .error .OutOfBlock := by
  simp [readSlot, Nat.not_lt.mpr h]

theorem writeSlot_of_lt {cap i : Nat} (d : Slots α) (c : Option α) (h : i < cap) :
    writeSlot cap d i c = .ok (fun k => if k = i then c else d k) := by
  simp [writeSlot, h]

theorem writeSlot_of_ge {cap i : Nat} (d : Slots α) (c : Option α) (h : cap ≤ i) :
    writeSlot cap d i c = .error .OutOfBlock := by
  simp [writeSlot, Nat.not_lt.mpr h]

theorem writeSlot_returns {cap i : Nat} {d d' : Slots α} {c : Option α}
    (h : writeSlot cap d i c = .ok d') :
    i < cap ∧ d' = fun k => if k = i then c else d k := by
  unfold writeSlot at h
  split at h
  · exact ⟨by assumption, (Except.ok.inj h).symm⟩
  · cases h

theorem readSlot_error {cap i : Nat} (d : Slots α) (e : Fault)
    (h : readSlot cap d i = .error e) : e = .OutOfBlock := by
  unfold readSlot at h
  split at h
  · cases h
  · rw [← Except.error.inj h]

theorem writeSlot_error {cap i : Nat} (d : Slots α) (c : Option α) (e : Fault)
    (h : writeSlot cap d i c = .error e) : e = .OutOfBlock := by
  unfold writeSlot at h
  split at h
  · cases h
  · rw [← Except.error.inj h]

theorem forLoop_zero {σ : Type} (body : Nat → σ → Except Fault σ) (i : Nat) (s : σ) :
    forLoop body 0 i s = .ok s := rfl

theorem forLoop_succ {σ : Type} (body : Nat → σ → Except Fault σ) (n i : Nat) (s : σ) :
    forLoop body (n + 1) i s = (body i s >>= forLoop body n (i + 1)) := rfl

/-- A loop whose first iteration faults, faults. -/
theorem forLoop_first_error {σ : Type} (body : Nat → σ → Except Fault σ) (n i : Nat) (s : σ)
    (e : Fault) (hn : 0 < n) (h : body i s = .error e) : forLoop body n i s = .error e := by
  obtain ⟨m, rfl⟩ : ∃ m, n = m + 1 := ⟨n - 1, by omega⟩
  rw [forLoop_succ, h, error_bind]

/-- A loop whose body can only fault with `OutOfBlock` can only fault with `OutOfBlock`. -/
theorem forLoop_error {σ : Type} (body : Nat → σ → Except Fault σ)
    (hbody : ∀ i s e, body i s = .error e → e = .OutOfBlock) :
    ∀ (n i : Nat) (s : σ) (e : Fault), forLoop body n i s = .error e → e = .OutOfBlock := by
  intro n
  induction n with
  | zero => intro i s e h; cases h
  | succ n ih =>
    intro i s e h
    rw [forLoop_succ] at h
    cases hb : body i s with
    | error e' =>
      rw [hb, error_bind] at h
      rw [← Except.error.inj h]
      exact hbody i s e' hb
    | ok s' =>
      rw [hb, ok_bind] at h
      exact ih (i + 1) s' e h

theorem shl1_of_lt {n : Nat} (h : n < 2 ^ 63) : shl1 n = 2 * n := by
  unfold shl1
  omega

theorem incr_of_lt {n : Nat} (h : n + 1 < 2 ^ 64) : incr n = n + 1 := by
  unfold incr
  omega

theorem decr_of_pos {n : Nat} (h0 : 1 ≤ n) (h : n ≤ 2 ^ 64) : decr n = n - 1 := by
  unfold decr
  omega

/-! ### The allocator -/

theorem le_mul_sizeof (t : Platform α) (n : Nat) : n ≤ n * t.sizeofT :=
  Nat.le_mul_of_pos_right n t.sizeofT_pos

/-- A request the allocator grants without wrapping is a block of `n` slots. -/
theorem alloc_granted (t : Platform α) (n : Nat) (h : n * t.sizeofT ≤ t.maxAlloc) :
    alloc t n = .ok n := by
  have hlt : n * t.sizeofT < 2 ^ 64 := by
    have := t.maxAlloc_lt
    omega
  unfold alloc
  rw [Nat.mod_eq_of_lt hlt, if_pos h, Nat.mul_div_cancel n t.sizeofT_pos]

/-- A request that does not wrap and exceeds what the allocator grants is refused. -/
theorem alloc_refused (t : Platform α) (n : Nat) (hlt : n * t.sizeofT < 2 ^ 64)
    (h : t.maxAlloc < n * t.sizeofT) : alloc t n = .error .BadAlloc := by
  unfold alloc
  rw [Nat.mod_eq_of_lt hlt, if_neg (by omega)]

/-- A block the allocator returned has at most `n` slots, and its bytes were granted. -/
theorem alloc_returns (t : Platform α) (n e : Nat) (h : alloc t n = .ok e) :
    e ≤ n ∧ e * t.sizeofT ≤ t.maxAlloc ∧ e < 2 ^ 63 ∧
      (e = n ↔ n * t.sizeofT ≤ t.maxAlloc) := by
  unfold alloc at h
  split at h
  · rename_i hle
    have he : e = (n * t.sizeofT) % 2 ^ 64 / t.sizeofT := (Except.ok.inj h).symm
    have h1 : e * t.sizeofT ≤ (n * t.sizeofT) % 2 ^ 64 := by
      rw [he]
      exact Nat.div_mul_le_self _ _
    have h2 : (n * t.sizeofT) % 2 ^ 64 ≤ n * t.sizeofT := Nat.mod_le _ _
    have h3 : e ≤ n := by
      have : e * t.sizeofT ≤ n * t.sizeofT := le_trans h1 h2
      exact Nat.le_of_mul_le_mul_right this t.sizeofT_pos
    have h4 : e * t.sizeofT ≤ t.maxAlloc := le_trans h1 hle
    have h5 : e < 2 ^ 63 := by
      have := le_mul_sizeof t e
      have := t.maxAlloc_lt
      omega
    refine ⟨h3, h4, h5, ?_⟩
    constructor
    · intro heq
      rw [← heq]
      exact h4
    · intro hn
      have hlt : n * t.sizeofT < 2 ^ 64 := by
        have := t.maxAlloc_lt
        omega
      rw [he, Nat.mod_eq_of_lt hlt, Nat.mul_div_cancel n t.sizeofT_pos]
  · cases h

theorem alloc_error (t : Platform α) (n : Nat) (e : Fault) (h : alloc t n = .error e) :
    e = .BadAlloc := by
  unfold alloc at h
  split at h
  · cases h
  · rw [← Except.error.inj h]

/-! ### The loops of `SetCapacity` and of the sized constructor -/

/-- The relocation loop of `SetCapacity`, while both blocks are large enough. -/
theorem relocate_ok (cap size : Nat) (d : Slots α) :
    ∀ (n i : Nat) (nd : Slots α), i + n ≤ cap → i + n ≤ size →
      forLoop (fun i nd => do
          let c ← readSlot cap d i
          writeSlot size nd i c) n i nd
        = .ok (fun k => if i ≤ k ∧ k < i + n then d k else nd k) := by
  intro n
  induction n with
  | zero =>
    intro i nd _ _
    rw [forLoop_zero]
    congr 1
    funext k
    have : ¬ (i ≤ k ∧ k < i) := by omega
    simp [this]
  | succ n ih =>
    intro i nd h1 h2
    rw [forLoop_succ]
    have hr : readSlot cap d i = .ok (d i) := readSlot_of_lt d (by omega)
    have hw : writeSlot size nd i (d i) = .ok (fun k => if k = i then d i else nd k) :=
      writeSlot_of_lt nd (d i) (by omega)
    simp only [hr, ok_bind, hw]
    rw [ih (i + 1) _ (by omega) (by omega)]
    congr 1
    funext k
    by_cases hk : k = i
    · subst hk
      have : ¬ (k + 1 ≤ k ∧ k < k + 1 + n) := by omega
      have h' : k ≤ k ∧ k < k + (n + 1) := by omega
      simp [this, h']
    · by_cases hin : i + 1 ≤ k ∧ k < i + 1 + n
      · have h' : i ≤ k ∧ k < i + (n + 1) := by omega
        simp [hin, h']
      · have h' : ¬ (i ≤ k ∧ k < i + (n + 1)) := by omega
        simp [hin, h', hk]

/-- A relocation loop that returns stayed inside both blocks, and copied the slots. -/
theorem relocate_returns (cap size : Nat) (d : Slots α) :
    ∀ (n i : Nat) (nd r : Slots α),
      forLoop (fun i nd => do
          let c ← readSlot cap d i
          writeSlot size nd i c) n i nd = .ok r →
      (n = 0 ∨ (i + n ≤ size ∧ i + n ≤ cap)) ∧
        r = fun k => if i ≤ k ∧ k < i + n then d k else nd k := by
  intro n
  induction n with
  | zero =>
    intro i nd r h
    refine ⟨Or.inl rfl, ?_⟩
    rw [forLoop_zero] at h
    rw [← Except.ok.inj h]
    funext k
    have : ¬ (i ≤ k ∧ k < i) := by omega
    simp [this]
  | succ n ih =>
    intro i nd r h
    rw [forLoop_succ] at h
    by_cases hc : i < cap
    · rw [readSlot_of_lt _ hc, ok_bind] at h
      by_cases hs : i < size
      · rw [writeSlot_of_lt _ _ hs, ok_bind] at h
        have hbound : n = 0 ∨ (i + 1 + n ≤ size ∧ i + 1 + n ≤ cap) :=
          (ih (i + 1) _ r h).1
        have hall : i + (n + 1) ≤ size ∧ i + (n + 1) ≤ cap := by omega
        refine ⟨Or.inr hall, ?_⟩
        have hok := relocate_ok cap size d (n + 1) i nd hall.2 hall.1
        rw [forLoop_succ, readSlot_of_lt _ hc, ok_bind, writeSlot_of_lt _ _ hs, ok_bind, h] at hok
        exact Except.ok.inj hok
      · rw [writeSlot_of_ge _ _ (by omega), error_bind] at h
        cases h
    · rw [readSlot_of_ge _ (by omega), error_bind] at h
      cases h

/-- The fill loop of the sized constructor. -/
theorem fill_ok (size : Nat) (value : α) :
    ∀ (n i : Nat) (d : Slots α), i + n ≤ size →
      forLoop (fun i d => writeSlot size d i (some value)) n i d
        = .ok (fun k => if i ≤ k ∧ k < i + n then some value else d k) := by
  intro n
  induction n with
  | zero =>
    intro i d _
    rw [forLoop_zero]
    congr 1
    funext k
    have : ¬ (i ≤ k ∧ k < i) := by omega
    simp [this]
  | succ n ih =>
    intro i d h1
    rw [forLoop_succ, writeSlot_of_lt d (some value) (by omega : i < size), ok_bind,
      ih (i + 1) _ (by omega)]
    congr 1
    funext k
    by_cases hk : k = i
    · subst hk
      have : ¬ (k + 1 ≤ k ∧ k < k + 1 + n) := by omega
      have h' : k ≤ k ∧ k < k + (n + 1) := by omega
      simp [this, h']
    · by_cases hin : i + 1 ≤ k ∧ k < i + 1 + n
      · have h' : i ≤ k ∧ k < i + (n + 1) := by omega
        simp [hin, h']
      · have h' : ¬ (i ≤ k ∧ k < i + (n + 1)) := by omega
        simp [hin, h', hk]

/-- A fill loop that returns stayed inside the block. -/
theorem fill_returns (size : Nat) (value : α) :
    ∀ (n i : Nat) (d r : Slots α),
      forLoop (fun i d => writeSlot size d i (some value)) n i d = .ok r →
      n = 0 ∨ i + n ≤ size := by
  intro n
  induction n with
  | zero => intro i d r _; exact Or.inl rfl
  | succ n ih =>
    intro i d r h
    rw [forLoop_succ] at h
    by_cases hs : i < size
    · rw [writeSlot_of_lt _ _ hs, ok_bind] at h
      rcases ih (i + 1) _ r h with h0 | hle
      · right; omega
      · right; omega
    · rw [writeSlot_of_ge _ _ (by omega), error_bind] at h
      cases h

namespace Vector

/-- What `SetCapacity` returns when the allocator grants the request and the live slots
fit both blocks. -/
theorem SetCapacity_ok (t : Platform α) (v : Vector α) (size : Nat)
    (h1 : v.m_Size ≤ v.m_Extent) (h2 : v.m_Size ≤ size)
    (hn : size * t.sizeofT ≤ t.maxAlloc) :
    SetCapacity t v size = .ok
      { m_Size := v.m_Size, m_Capacity := size,
        m_Data := fun k => if k < v.m_Size then v.m_Data k else none, m_Extent := size } := by
  unfold SetCapacity
  rw [alloc_granted t size hn, ok_bind,
    relocate_ok v.m_Extent size v.m_Data (v.m_Size - 0) 0 (rawBlock α) (by omega) (by omega)]
  simp only [ok_bind, pure, Except.pure]
  congr 2
  funext k
  by_cases hk : k < v.m_Size
  · have : 0 ≤ k ∧ k < 0 + (v.m_Size - 0) := by omega
    simp [hk, this]
  · have : ¬ (0 ≤ k ∧ k < 0 + (v.m_Size - 0)) := by omega
    simp [hk, this, rawBlock]

/-- A `SetCapacity` that returns got a block from the allocator that holds the live
slots, which the old block held too. -/
theorem SetCapacity_returns (t : Platform α) (v v' : Vector α) (size : Nat)
    (h : SetCapacity t v size = .ok v') :
    v'.m_Size = v.m_Size ∧ v'.m_Capacity = size ∧ alloc t size = .ok v'.m_Extent ∧
      (v.m_Size = 0 ∨ (v.m_Size ≤ v'.m_Extent ∧ v.m_Size ≤ v.m_Extent)) ∧
      v'.m_Data = fun k => if k < v.m_Size then v.m_Data k else none := by
  unfold SetCapacity at h
  obtain ⟨extent, halloc, h⟩ := bind_eq_ok h
  obtain ⟨nd, hloop, h⟩ := bind_eq_ok h
  obtain ⟨hbound, hnd⟩ := relocate_returns v.m_Extent extent v.m_Data _ _ _ _ hloop
  have hv : v' = { v with m_Data := nd, m_Extent := extent, m_Capacity := size } :=
    (Except.ok.inj h).symm
  rw [hv]
  refine ⟨rfl, rfl, halloc, ?_, ?_⟩
  · show v.m_Size = 0 ∨ (v.m_Size ≤ extent ∧ v.m_Size ≤ v.m_Extent)
    omega
  · show nd = _
    rw [hnd]
    funext k
    by_cases hk : k < v.m_Size
    · have : 0 ≤ k ∧ k < 0 + (v.m_Size - 0) := by omega
      simp [hk, this]
    · have : ¬ (0 ≤ k ∧ k < 0 + (v.m_Size - 0)) := by omega
      simp [hk, this, rawBlock]

/-- The faults of `SetCapacity`: a refused allocation, or a slot outside a block. -/
theorem SetCapacity_error (t : Platform α) (v : Vector α) (size : Nat) (e : Fault)
    (h : SetCapacity t v size = .error e) : e = .BadAlloc ∨ e = .OutOfBlock := by
  unfold SetCapacity at h
  cases ha : alloc t size with
  | error e' =>
    rw [ha, error_bind] at h
    rw [← Except.error.inj h]
    exact Or.inl (alloc_error t size e' ha)
  | ok extent =>
    rw [ha, ok_bind] at h
    cases hl : forLoop (fun i nd => do
        let c ← readSlot v.m_Extent v.m_Data i
        writeSlot extent nd i c) (v.m_Size - 0) 0 (rawBlock α) with
    | error e' =>
      rw [hl, error_bind] at h
      rw [← Except.error.inj h]
      right
      refine forLoop_error _ ?_ _ _ _ e' hl
      intro i s e'' hb
      cases hr : readSlot v.m_Extent v.m_Data i with
      | error e3 =>
        rw [hr, error_bind] at hb
        rw [← Except.error.inj hb]
        exact readSlot_error _ _ hr
      | ok c =>
        rw [hr, ok_bind] at hb
        exact writeSlot_error _ _ _ hb
    | ok nd =>
      rw [hl, ok_bind] at h
      cases h

/-- What the sized constructor returns when the allocator grants the request. -/
theorem sized_ok (t : Platform α) (size : Nat) (value : α)
    (hn : size * t.sizeofT ≤ t.maxAlloc) :
    sized t size value = .ok
      { m_Size := size, m_Capacity := size,
        m_Data := fun k => if k < size then some value else none, m_Extent := size } := by
  unfold sized
  rw [alloc_granted t size hn, ok_bind, fill_ok size value (size - 0) 0 (rawBlock α) (by omega)]
  simp only [ok_bind, pure, Except.pure]
  congr 2
  funext k
  by_cases hk : k < size
  · have : 0 ≤ k ∧ k < 0 + (size - 0) := by omega
    simp [hk, this]
  · have : ¬ (0 ≤ k ∧ k < 0 + (size - 0)) := by omega
    simp [hk, this, rawBlock]

/-- A sized constructor that returns was granted a block of exactly `size` slots. -/
theorem sized_returns (t : Platform α) (size : Nat) (value : α) (v : Vector α)
    (h : sized t size value = .ok v) :
    size * t.sizeofT ≤ t.maxAlloc ∧ v.m_Size = size ∧ v.m_Capacity = size ∧
      v.m_Extent = size := by
  have hgrant : size * t.sizeofT ≤ t.maxAlloc := by
    unfold sized at h
    obtain ⟨extent, halloc, h⟩ := bind_eq_ok h
    obtain ⟨d, hloop, h⟩ := bind_eq_ok h
    obtain ⟨h1, h2, h3, h4⟩ := alloc_returns t size extent halloc
    rcases fill_returns extent value _ _ _ _ hloop with h0 | hle
    · have : size = 0 := by omega
      rw [this]
      simp
    · exact h4.mp (by omega)
  rw [sized_ok t size value hgrant] at h
  rw [← Except.ok.inj h]
  exact ⟨hgrant, rfl, rfl, rfl⟩

/-- The faults of the sized constructor: a refused allocation, or a slot outside the
block. -/
theorem sized_error (t : Platform α) (size : Nat) (value : α) (e : Fault)
    (h : sized t size value = .error e) : e = .BadAlloc ∨ e = .OutOfBlock := by
  unfold sized at h
  cases ha : alloc t size with
  | error e' =>
    rw [ha, error_bind] at h
    rw [← Except.error.inj h]
    exact Or.inl (alloc_error t size e' ha)
  | ok extent =>
    rw [ha, ok_bind] at h
    cases hl : forLoop (fun i d => writeSlot extent d i (some value)) (size - 0) 0
        (rawBlock α) with
    | error e' =>
      rw [hl, error_bind] at h
      rw [← Except.error.inj h]
      right
      exact forLoop_error _ (fun i s e'' hb => writeSlot_error _ _ _ hb) _ _ _ e' hl
    | ok nd =>
      rw [hl, ok_bind] at h
      cases h

theorem deref_of_some (v : Vector α) (i : Nat) (a : α) (h : i < v.m_Extent)
    (hd : v.m_Data i = some a) : deref v i = .ok a := by
  unfold deref
  rw [readSlot_of_lt v.m_Data h, ok_bind, hd]
  rfl

theorem At_of_lt (safe : Bool) (v : Vector α) (i : Nat) (h : i < v.m_Size) :
    At safe v i = deref v i := by
  unfold At
  simp [h]

theorem deref_eq_ok (v : Vector α) (i : Nat) (a : α) (h : deref v i = .ok a) :
    i < v.m_Extent ∧ v.m_Data i = some a := by
  unfold deref readSlot at h
  by_cases hi : i < v.m_Extent
  · refine ⟨hi, ?_⟩
    simp only [hi, if_true, ok_bind] at h
    cases hd : v.m_Data i with
    | none =>
      rw [hd] at h
      cases h
    | some b =>
      rw [hd] at h
      rw [← Except.ok.inj h]
  · simp only [hi, if_false] at h
    cases h

/-- What it means for the live contents to be the list `xs`. -/
theorem contents_eq (v : Vector α) (xs : List α) (h : v.contents = xs.map Except.ok) :
    v.m_Size = xs.length ∧
      ∀ k a, xs[k]? = some a → k < v.m_Extent ∧ v.m_Data k = some a := by
  have hlen : v.m_Size = xs.length := by
    have := congrArg List.length h
    simpa [contents] using this
  refine ⟨hlen, ?_⟩
  intro k a hk
  have hk' : k < xs.length := by
    by_contra hcon
    rw [List.getElem?_eq_none (by omega)] at hk
    cases hk
  have h1 : (v.contents)[k]? = some (deref v k) := by
    simp [contents, List.getElem?_range (by omega : k < v.m_Size)]
  have h2 : (xs.map (Except.ok : α → Except Fault α))[k]? = some (Except.ok a) := by
    simp [hk]
  rw [h] at h1
  rw [h1] at h2
  exact deref_eq_ok v k a (Option.some.inj h2)

/-- Live contents that are all values lie inside the block. -/
theorem contents_in_block (v : Vector α) (xs : List α) (h : v.contents = xs.map Except.ok) :
    v.m_Size ≤ v.m_Extent := by
  obtain ⟨hlen, hall⟩ := contents_eq v xs h
  by_cases h0 : v.m_Size = 0
  · omega
  · cases hq : xs[v.m_Size - 1]? with
    | none =>
      rw [List.getElem?_eq_none_iff] at hq
      omega
    | some a =>
      have := (hall _ a hq).1
      omega

/-- The live contents, from the slots. -/
theorem contents_of_slots (v : Vector α) (ys : List α) (hlen : v.m_Size = ys.length)
    (h : ∀ k a, ys[k]? = some a → k < v.m_Extent ∧ v.m_Data k = some a) :
    v.contents = ys.map Except.ok := by
  apply List.ext_getElem?
  intro k
  simp only [contents, List.getElem?_map]
  by_cases hk : k < ys.length
  · rw [List.getElem?_range (by omega), List.getElem?_eq_getElem hk]
    obtain ⟨hc, hd⟩ := h k _ (List.getElem?_eq_getElem hk)
    simp only [Option.map_some']
    rw [deref_of_some v k _ hc hd]
  · rw [List.getElem?_eq_none (by simp; omega), List.getElem?_eq_none (by omega)]
    rfl

/-- The state the fast erase leaves. -/
theorem Erase_fast_ok (t : Platform α) (safe : Bool) (v : Vector α) (i : Nat)
    (hi : i < v.m_Size) (hle : v.m_Size ≤ v.m_Extent) :
    Erase t safe true v i = .ok
      { m_Size := decr v.m_Size, m_Capacity := v.m_Capacity,
        m_Data := fun k => if k = i then v.m_Data (decr v.m_Size) else v.m_Data k,
        m_Extent := v.m_Extent } := by
  unfold Erase memoryMove
  have hd : decr v.m_Size < v.m_Extent := by
    unfold decr
    omega
  simp only [hi, decide_True, Bool.not_true, Bool.and_false, Bool.false_eq_true, if_false,
    if_true]
  rw [readSlot_of_lt _ (by omega : i < v.m_Extent), readSlot_of_lt _ hd]
  simp only [ok_bind, pure, Except.pure, Pure.pure]
  rw [writeSlot_of_lt _ _ (by omega : i < v.m_Extent)]
  rfl

/-- The cursor walk from index `i` to index `n` over one block. -/
theorem traverse_range (d d' : Slots α) (e e' n : Nat) (hn : n < 2 ^ 64) :
    ∀ (fuel i : Nat), i ≤ n → n - i ≤ fuel →
      traverse fuel { m_Index := i, m_Data := d, m_Extent := e }
          { m_Index := n, m_Data := d', m_Extent := e' }
        = some ((List.range' i (n - i)).map
            (fun k => Iterator.star { m_Index := k, m_Data := d, m_Extent := e })) := by
  intro fuel
  induction fuel with
  | zero =>
    intro i hi hf
    have : i = n := by omega
    subst this
    simp [traverse, Iterator.eq]
  | succ fuel ih =>
    intro i hi hf
    by_cases heq : i = n
    · subst heq
      simp [traverse, Iterator.eq]
    · have hstep : n - i = (n - (i + 1)) + 1 := by omega
      have hnext : incr i = i + 1 := incr_of_lt (by omega)
      unfold traverse
      simp only [Iterator.eq, heq, decide_False, Bool.false_eq_true, if_false, Iterator.next,
        hnext]
      rw [ih (i + 1) (by omega) (by omega), hstep, List.range'_succ]
      simp

end Vector

namespace Vector

theorem deref_ne_assert (v : Vector α) (i : Nat) : deref v i ≠ .error .AssertFailed := by
  unfold deref readSlot
  split
  · rw [ok_bind]
    cases v.m_Data i with
    | none => intro h; cases h
    | some a => intro h; cases h
  · intro h
    cases h

/-- The checked `At` fails its assertion exactly on the indices that are not live. -/
theorem At_assert_iff (v : Vector α) (i : Nat) :
    At true v i = .error .AssertFailed ↔ v.m_Size ≤ i := by
  unfold At
  by_cases hi : i < v.m_Size
  · simp only [hi, decide_True, Bool.not_true, Bool.and_false, Bool.false_eq_true, if_false]
    constructor
    · intro h
      exact absurd h (deref_ne_assert v i)
    · intro h
      omega
  · simp only [hi, decide_False, Bool.not_false, Bool.and_self, if_true, true_iff]
    omega

end Vector

namespace Vector

/-- An iteration of the shift loop can only fault with `OutOfBlock`. -/
theorem shiftStep_error (t : Platform α) (cap i : Nat) (d : Slots α) (e : Fault)
    (h : shiftStep t cap i d = .error e) : e = .OutOfBlock := by
  unfold shiftStep at h
  cases hr : readSlot cap d i with
  | error e' =>
    rw [hr, error_bind] at h
    rw [← Except.error.inj h]
    exact readSlot_error d e' hr
  | ok c =>
    rw [hr, ok_bind] at h
    cases hw : writeSlot cap d (decr i) c with
    | error e' =>
      rw [hw, error_bind] at h
      rw [← Except.error.inj h]
      exact writeSlot_error d c e' hw
    | ok d1 =>
      rw [hw, ok_bind] at h
      exact writeSlot_error d1 _ e h

/-- The method `Erase` and its body run statement by statement report the same. -/
theorem Erase_eq_exec (t : Platform α) (safe fast : Bool) (v : Vector α) (index : Nat) :
    Erase t safe fast v index = outcome (execStmts (EraseBody t safe fast index) v) := by
  unfold Erase EraseBody
  by_cases hassert : (safe && !(decide (index < v.m_Size))) = true
  · simp only [execStmts, assertStmt, hassert, if_true]
    rfl
  · simp only [execStmts, assertStmt, hassert, if_false, Bool.false_eq_true]
    by_cases hin : index < v.m_Extent
    · rw [readSlot_of_lt _ hin]
      cases fast with
      | true =>
        simp only [if_true, Except.map, ok_bind]
        cases hm : memoryMove v.m_Extent v.m_Data index (decr v.m_Size) with
        | error e => simp [outcome, hm]
        | ok d => simp [outcome, hm]
      | false =>
        simp only [Bool.false_eq_true, if_false, Except.map, ok_bind]
        cases hm : forLoop (shiftStep t v.m_Extent) (decr v.m_Size - index) index v.m_Data with
        | error e => simp [outcome, hm]
        | ok d => simp [outcome, hm]
    · rw [readSlot_of_ge _ (by omega)]
      rfl

/-- The method `Reserve` and its body run statement by statement report the same. -/
theorem Reserve_eq_exec (t : Platform α) (safe : Bool) (v : Vector α) (size : Nat) :
    Reserve t safe v size = outcome (execStmts (ReserveBody t safe size) v) := by
  unfold Reserve ReserveBody
  by_cases hassert : (safe && !(decide (size > v.m_Capacity))) = true
  · simp only [execStmts, assertStmt, hassert, if_true]
    rfl
  · simp only [execStmts, assertStmt, hassert, if_false, Bool.false_eq_true]
    cases hm : SetCapacity t v size with
    | error e => rfl
    | ok d => rfl

/-- The relocation statement of `Erase` can only fault with `OutOfBlock`. -/
theorem Erase_relocation_error (t : Platform α) (fast : Bool) (v : Vector α) (index m : Nat)
    (e : Fault)
    (h : (if fast then memoryMove v.m_Extent v.m_Data index m
      else forLoop (shiftStep t v.m_Extent) (m - index) index v.m_Data)
      = Except.error e) : e = .OutOfBlock := by
  cases fast with
  | true =>
    simp only [if_true] at h
    unfold memoryMove at h
    cases hr : readSlot v.m_Extent v.m_Data m with
    | error e' =>
      rw [hr, error_bind] at h
      rw [← Except.error.inj h]
      exact readSlot_error _ e' hr
    | ok c =>
      rw [hr, ok_bind] at h
      exact writeSlot_error _ c e h
  | false =>
    simp only [Bool.false_eq_true, if_false] at h
    exact forLoop_error _ (fun i d e' hb => shiftStep_error t _ i d e' hb) _ _ _ _ h

/-- The method `Erase` once its assertion has passed or is compiled out: slot `index` is
accessed, the policy relocates, and the counters are updated. -/
theorem Erase_unfold (t : Platform α) (safe fast : Bool) (v : Vector α) (index : Nat)
    (hassert : (safe && !(decide (index < v.m_Size))) = false) :
    Erase t safe fast v index =
      (readSlot v.m_Extent v.m_Data index >>= fun _ =>
        (if fast then memoryMove v.m_Extent v.m_Data index (decr v.m_Size)
          else forLoop (shiftStep t v.m_Extent) (decr v.m_Size - index) index v.m_Data)
        >>= fun d => Except.ok { v with m_Size := decr v.m_Size, m_Data := d }) := by
  unfold Erase
  simp only [hassert, Bool.false_eq_true, if_false]
  cases readSlot v.m_Extent v.m_Data index with
  | error e => rfl
  | ok c =>
    cases fast with
    | true =>
      simp only [if_true, ok_bind]
      cases memoryMove v.m_Extent v.m_Data index (decr v.m_Size) <;> rfl
    | false =>
      simp only [Bool.false_eq_true, if_false, ok_bind]
      cases forLoop (shiftStep t v.m_Extent) (decr v.m_Size - index) index v.m_Data <;> rfl

/-- The `Erase` of either policy never changes the capacity or the block, and it can only
fault with `OutOfBlock` once its assertion has passed. -/
theorem Erase_cases (t : Platform α) (safe fast : Bool) (v : Vector α) (index : Nat)
    (hassert : (safe && !(decide (index < v.m_Size))) = false) :
    Erase t safe fast v index = .error .OutOfBlock ∨
      ∃ d : Slots α, Erase t safe fast v index
        = .ok { m_Size := decr v.m_Size, m_Capacity := v.m_Capacity, m_Data := d,
                m_Extent := v.m_Extent } := by
  rw [Erase_unfold t safe fast v index hassert]
  cases hr : readSlot v.m_Extent v.m_Data index with
  | error e =>
    left
    rw [error_bind, readSlot_error _ e hr]
  | ok c =>
    rw [ok_bind]
    cases hm : (if fast then memoryMove v.m_Extent v.m_Data index (decr v.m_Size)
          else forLoop (shiftStep t v.m_Extent) (decr v.m_Size - index) index v.m_Data) with
    | error e =>
      left
      rw [error_bind, Erase_relocation_error t fast v index (decr v.m_Size) e hm]
    | ok d =>
      right
      exact ⟨d, rfl⟩

/-- The checked `Erase` fails its assertion exactly on the indices that are not live. -/
theorem Erase_assert_iff (t : Platform α) (fast : Bool) (v : Vector α) (index : Nat) :
    Erase t true fast v index = .error .AssertFailed ↔ v.m_Size ≤ index := by
  by_cases hi : index < v.m_Size
  · have hassert : (true && !(decide (index < v.m_Size))) = false := by simp [hi]
    constructor
    · intro h
      rcases Erase_cases t true fast v index hassert with h' | ⟨d, h'⟩
      · rw [h'] at h
        cases h
      · rw [h'] at h
        cases h
    · intro h
      omega
  · constructor
    · intro _
      omega
    · intro _
      unfold Erase
      simp only [hi, decide_False, Bool.not_false, Bool.and_self, if_true]
      rfl

/-- The checked `Reserve` fails its assertion exactly when the capacity would not grow. -/
theorem Reserve_assert_iff (t : Platform α) (v : Vector α) (size : Nat) :
    Reserve t true v size = .error .AssertFailed ↔ size ≤ v.m_Capacity := by
  unfold Reserve
  by_cases hgt : size > v.m_Capacity
  · simp only [hgt, decide_True, Bool.not_true, Bool.and_false, Bool.false_eq_true, if_false]
    constructor
    · intro h
      rcases SetCapacity_error t v size _ h with h' | h'
      · cases h'
      · cases h'
    · intro h
      omega
  · simp only [hgt, decide_False, Bool.not_false, Bool.and_self, if_true, true_iff]
    omega

end Vector

namespace Vector

/-- The ordered erase of the last element: the shift loop does not run. -/
theorem Erase_ordered_last (t : Platform α) (safe : Bool) (v : Vector α) (hpos : 1 ≤ v.m_Size)
    (hle : v.m_Size ≤ v.m_Extent) :
    Erase t safe false v (decr v.m_Size) = .ok
      { m_Size := decr v.m_Size, m_Capacity := v.m_Capacity, m_Data := v.m_Data,
        m_Extent := v.m_Extent } := by
  have hd : decr v.m_Size < v.m_Size := by
    unfold decr
    omega
  rw [Erase_unfold t safe false v _ (by simp [hd]), readSlot_of_lt _ (by omega), ok_bind]
  simp only [Bool.false_eq_true, if_false, Nat.sub_self, forLoop_zero, ok_bind]

/-- The fast erase of the last element: the slot is copied onto itself. -/
theorem Erase_fast_last (t : Platform α) (safe : Bool) (v : Vector α) (hpos : 1 ≤ v.m_Size)
    (hle : v.m_Size ≤ v.m_Extent) :
    Erase t safe true v (decr v.m_Size) = .ok
      { m_Size := decr v.m_Size, m_Capacity := v.m_Capacity, m_Data := v.m_Data,
        m_Extent := v.m_Extent } := by
  have hd : decr v.m_Size < v.m_Size := by
    unfold decr
    omega
  rw [Erase_fast_ok t safe v _ hd hle]
  congr 2
  funext k
  by_cases hk : k = decr v.m_Size
  · rw [if_pos hk, hk]
  · rw [if_neg hk]

end Vector

namespace Vector

/-- A block granted for `m_Capacity` slots has fewer than `2 ^ 63` of them. -/
theorem Allocated.capacity_lt {t : Platform α} {v : Vector α} (hb : v.Allocated t) :
    v.m_Capacity < 2 ^ 63 := by
  have h1 := le_mul_sizeof t v.m_Capacity
  have h2 := t.maxAlloc_lt
  have h3 := hb.2
  omega

theorem Allocated_new (t : Platform α) : (new : Vector α).Allocated t := by
  refine ⟨rfl, ?_⟩
  show 1 * t.sizeofT ≤ t.maxAlloc
  rw [Nat.one_mul]
  exact t.one_fits

/-- The growth step of an insertion on a full vector, when the allocator grants the
doubled block. -/
theorem Grow_ok (t : Platform α) (v : Vector α) (hfull : v.m_Size = v.m_Capacity)
    (hext : v.m_Size ≤ v.m_Extent)
    (hg : 2 * v.m_Capacity * t.sizeofT ≤ t.maxAlloc) :
    Grow t v = .ok
      { m_Size := v.m_Size, m_Capacity := 2 * v.m_Capacity,
        m_Data := fun k => if k < v.m_Size then v.m_Data k else none,
        m_Extent := 2 * v.m_Capacity } := by
  have hc : v.m_Capacity < 2 ^ 63 := by
    have h1 := le_mul_sizeof t (2 * v.m_Capacity)
    have h2 := t.maxAlloc_lt
    omega
  unfold Grow
  rw [shl1_of_lt hc]
  exact SetCapacity_ok t v (2 * v.m_Capacity) hext (by omega) hg

/-- The growth step of an insertion on a full vector, when the allocator refuses the
doubled block. -/
theorem Grow_refused (t : Platform α) (v : Vector α) (hb : v.Allocated t)
    (hg : ¬ 2 * v.m_Capacity * t.sizeofT ≤ t.maxAlloc) :
    Grow t v = .error .BadAlloc := by
  have hc : v.m_Capacity < 2 ^ 63 := hb.capacity_lt
  have hm : 2 * v.m_Capacity * t.sizeofT = 2 * (v.m_Capacity * t.sizeofT) := Nat.mul_assoc _ _ _
  have h2 := t.maxAlloc_lt
  have h3 := hb.2
  unfold Grow SetCapacity
  rw [shl1_of_lt hc, alloc_refused t (2 * v.m_Capacity) (by omega) (by omega)]
  rfl

/-- What `Push` returns for an argument outside the block, when there is room or the
allocator grants the doubled block. -/
theorem Push_ok (t : Platform α) (v : Vector α) (value : α) (h1 : 1 ≤ v.m_Capacity)
    (h2 : v.m_Size ≤ v.m_Capacity) (hb : v.Allocated t)
    (h3 : v.m_Size < v.m_Capacity ∨ 2 * v.m_Capacity * t.sizeofT ≤ t.maxAlloc) :
    Push t v (.outside value) = .ok
      ({ m_Size := incr v.m_Size,
         m_Capacity := if v.m_Size = v.m_Capacity then 2 * v.m_Capacity else v.m_Capacity,
         m_Data := fun k =>
           if k = v.m_Size then some value
           else if v.m_Size = v.m_Capacity then (if k < v.m_Size then v.m_Data k else none)
           else v.m_Data k,
         m_Extent := if v.m_Size = v.m_Capacity then 2 * v.m_Capacity else v.m_Capacity },
       value) := by
  have hext : v.m_Extent = v.m_Capacity := hb.1
  unfold Push
  by_cases hfull : v.m_Size = v.m_Capacity
  · have hg : 2 * v.m_Capacity * t.sizeofT ≤ t.maxAlloc := by omega
    rw [if_pos hfull, Grow_ok t v hfull (by omega) hg, ok_bind]
    simp only [readRef, ok_bind]
    rw [writeSlot_of_lt _ _ (by omega : v.m_Size < 2 * v.m_Capacity), ok_bind]
    simp only [hfull, pure, Except.pure, if_true]
  · rw [if_neg hfull]
    simp only [pure, Except.pure, ok_bind, readRef]
    rw [writeSlot_of_lt _ _ (by omega : v.m_Size < v.m_Extent), ok_bind]
    simp only [hfull, if_false, hext]

/-- A `Push` on a full vector whose doubled block the allocator refuses. -/
theorem Push_refused (t : Platform α) (v : Vector α) (value : Ref α)
    (hfull : v.m_Size = v.m_Capacity) (hb : v.Allocated t)
    (hg : ¬ 2 * v.m_Capacity * t.sizeofT ≤ t.maxAlloc) :
    Push t v value = .error .BadAlloc := by
  unfold Push
  rw [if_pos hfull, Grow_refused t v hb hg]
  rfl

/-- With an argument outside the block, `Push(T &&)` differs from `Push(const T &)` in
what the returned reference reads only. -/
theorem PushMove_outside (t : Platform α) (v : Vector α) (value : α) :
    PushMove t v (.outside value)
      = (Push t v (.outside value)).map (fun p => (p.1, t.movedFrom value)) := by
  unfold PushMove Push
  have key : ∀ r : Except Fault (Vector α),
      (r >>= fun v1 => do
        let x ← readRef (decide (v.m_Size = v.m_Capacity)) v1 (Ref.outside value)
        let d ← writeSlot v1.m_Extent v1.m_Data v1.m_Size (some x)
        let d' ← moveOut t v1.m_Extent d x (Ref.outside value)
        pure (({ v1 with m_Data := d', m_Size := incr v1.m_Size } : Vector α), t.movedFrom x))
      = Except.map (fun p => (p.1, t.movedFrom value))
        (r >>= fun v1 => do
          let x ← readRef (decide (v.m_Size = v.m_Capacity)) v1 (Ref.outside value)
          let d ← writeSlot v1.m_Extent v1.m_Data v1.m_Size (some x)
          pure (({ v1 with m_Data := d, m_Size := incr v1.m_Size } : Vector α), x)) := by
    intro r
    cases r with
    | error e => rfl
    | ok v1 =>
      simp only [ok_bind, readRef]
      cases writeSlot v1.m_Extent v1.m_Data v1.m_Size (some value) with
      | error e => rfl
      | ok d => rfl
  by_cases hfull : v.m_Size = v.m_Capacity
  · simp only [hfull, if_true]
    exact key _
  · simp only [hfull, if_false]
    exact key _

/-- With arguments outside the block, `Emplace` is `Push` of the constructed value, up to
what is returned. -/
theorem Emplace_outside {β : Type} (t : Platform α) (ctor : β → α) (v : Vector α)
    (arguments : β) :
    Emplace t ctor v (.outside arguments)
      = (Push t v (.outside (ctor arguments))).map (fun p => (p.1, decr p.1.m_Size)) := by
  unfold Emplace Push
  have key : ∀ r : Except Fault (Vector α),
      (r >>= fun v1 => do
        let x ← construct ctor (decide (v.m_Size = v.m_Capacity)) v1 (Ref.outside arguments)
        let d ← writeSlot v1.m_Extent v1.m_Data v1.m_Size (some x)
        let v2 : Vector α := { v1 with m_Data := d, m_Size := incr v1.m_Size }
        pure (v2, decr v2.m_Size))
      = Except.map (fun p => (p.1, decr p.1.m_Size))
        (r >>= fun v1 => do
          let x ← readRef (decide (v.m_Size = v.m_Capacity)) v1 (Ref.outside (ctor arguments))
          let d ← writeSlot v1.m_Extent v1.m_Data v1.m_Size (some x)
          pure (({ v1 with m_Data := d, m_Size := incr v1.m_Size } : Vector α), x)) := by
    intro r
    cases r with
    | error e => rfl
    | ok v1 =>
      simp only [ok_bind, readRef, construct]
      cases writeSlot v1.m_Extent v1.m_Data v1.m_Size (some (ctor arguments)) with
      | error e => rfl
      | ok d => rfl
  by_cases hfull : v.m_Size = v.m_Capacity
  · simp only [hfull, if_true]
    exact key _
  · simp only [hfull, if_false]
    exact key _

/-- The counters and the slots after an insertion, in the form the theorems use. -/
theorem Push_effect (t : Platform α) (v : Vector α) (value : α) (h1 : 1 ≤ v.m_Capacity)
    (h2 : v.m_Size ≤ v.m_Capacity) (hb : v.Allocated t)
    (h3 : v.m_Size < v.m_Capacity ∨ 2 * v.m_Capacity * t.sizeofT ≤ t.maxAlloc) :
    ∃ v' : Vector α, Push t v (.outside value) = .ok (v', value) ∧
      v'.m_Size = v.m_Size + 1 ∧
      v'.m_Capacity = (if v.m_Size = v.m_Capacity then 2 * v.m_Capacity else v.m_Capacity) ∧
      v'.m_Size ≤ v'.m_Capacity ∧ v'.Allocated t ∧
      v'.m_Data v.m_Size = some value ∧
      ∀ k, k < v.m_Size → v'.m_Data k = v.m_Data k := by
  have hc := hb.capacity_lt
  refine ⟨_, Push_ok t v value h1 h2 hb h3, ?_, rfl, ?_, ?_, ?_, ?_⟩
  · show incr v.m_Size = v.m_Size + 1
    exact incr_of_lt (by omega)
  · show incr v.m_Size ≤ (if v.m_Size = v.m_Capacity then 2 * v.m_Capacity else v.m_Capacity)
    rw [incr_of_lt (by omega)]
    split <;> omega
  · refine ⟨rfl, ?_⟩
    show (if v.m_Size = v.m_Capacity then 2 * v.m_Capacity else v.m_Capacity) * t.sizeofT
      ≤ t.maxAlloc
    by_cases hfull : v.m_Size = v.m_Capacity
    · rw [if_pos hfull]
      omega
    · rw [if_neg hfull]
      exact hb.2
  · simp
  · intro k hk
    have hne : k ≠ v.m_Size := by omega
    simp [hne, hk]

end Vector

/-- A request whose byte count does not wrap and that the allocator answered was
granted in full. -/
theorem alloc_exact (t : Platform α) (n e : Nat) (hlt : n * t.sizeofT < 2 ^ 64)
    (h : alloc t n = .ok e) : n * t.sizeofT ≤ t.maxAlloc ∧ e = n := by
  have hg : n * t.sizeofT ≤ t.maxAlloc := by
    by_contra hcon
    rw [alloc_refused t n hlt (by omega)] at h
    cases h
  rw [alloc_granted t n hg] at h
  exact ⟨hg, (Except.ok.inj h).symm⟩

/-- The counters after an insertion that returned, from the facts its steps establish:
the capacity doubled exactly when the vector was full, which had at least one slot. -/
theorem insert_facts (t : Platform α) (size cap ext size' cap' ext' : Nat)
    (hs : size' = incr size) (hw : size < ext')
    (hcase : (size ≠ cap ∧ cap' = cap ∧ ext' = ext) ∨
      (size = cap ∧ cap' = shl1 cap ∧ alloc t (shl1 cap) = .ok ext')) :
    (size = cap → cap' = 2 * cap ∧ 1 ≤ cap) ∧ (size ≠ cap → cap' = cap) ∧
      size' ≤ size + 1 := by
  have hincr : size' ≤ size + 1 := by
    rw [hs]
    unfold incr
    omega
  rcases hcase with ⟨hne, hc, -⟩ | ⟨hfull, hc, ha⟩
  · exact ⟨fun h => absurd h hne, fun _ => hc, hincr⟩
  · obtain ⟨h1, -, h3, -⟩ := alloc_returns t _ _ ha
    have hlt : cap < 2 ^ 63 := by omega
    rw [shl1_of_lt hlt] at hc h1
    exact ⟨fun _ => ⟨hc, by omega⟩, fun h => absurd hfull h, hincr⟩

/-- The counters after an insertion that returned on a state whose block was granted for
`m_Capacity` slots: the size grew by one, and the new block was granted for the new
capacity. -/
theorem insert_allocated (t : Platform α) (size cap ext size' cap' ext' : Nat)
    (hext : ext = cap) (hgr : cap * t.sizeofT ≤ t.maxAlloc)
    (hs : size' = incr size) (hw : size < ext')
    (hcase : (size ≠ cap ∧ cap' = cap ∧ ext' = ext) ∨
      (size = cap ∧ cap' = shl1 cap ∧ alloc t (shl1 cap) = .ok ext')) :
    size' = size + 1 ∧ size' ≤ cap' ∧ ext' = cap' ∧ cap' * t.sizeofT ≤ t.maxAlloc ∧
      (size = cap → 2 * cap * t.sizeofT ≤ t.maxAlloc) := by
  have hlt : cap < 2 ^ 63 := by
    have h1 := le_mul_sizeof t cap
    have h2 := t.maxAlloc_lt
    omega
  rcases hcase with ⟨hne, hc, he⟩ | ⟨hfull, hc, ha⟩
  · have hsz : size' = size + 1 := by
      rw [hs]
      exact incr_of_lt (by omega)
    refine ⟨hsz, by omega, by omega, ?_, fun h => absurd h hne⟩
    rw [hc]
    exact hgr
  · have hsz : size' = size + 1 := by
      rw [hs]
      exact incr_of_lt (by omega)
    rw [shl1_of_lt hlt] at hc ha
    have hm : 2 * cap * t.sizeofT = 2 * (cap * t.sizeofT) := Nat.mul_assoc _ _ _
    have h2 := t.maxAlloc_lt
    obtain ⟨hg, he⟩ := alloc_exact t (2 * cap) ext' (by omega) ha
    refine ⟨hsz, by omega, by omega, ?_, fun _ => hg⟩
    rw [hc]
    exact hg

namespace Vector

theorem Push_unfold (t : Platform α) (v : Vector α) (value : Ref α) :
    Push t v value =
      ((if v.m_Size = v.m_Capacity then Grow t v else .ok v) >>= fun v1 =>
        readRef (decide (v.m_Size = v.m_Capacity)) v1 value >>= fun x =>
        writeSlot v1.m_Extent v1.m_Data v1.m_Size (some x) >>= fun d =>
        Except.ok (({ v1 with m_Data := d, m_Size := incr v1.m_Size } : Vector α), x)) := by
  unfold Push
  by_cases hfull : v.m_Size = v.m_Capacity
  · simp only [hfull, if_true]
    rfl
  · simp only [hfull, if_false]
    rfl

theorem PushMove_unfold (t : Platform α) (v : Vector α) (value : Ref α) :
    PushMove t v value =
      ((if v.m_Size = v.m_Capacity then Grow t v else .ok v) >>= fun v1 =>
        readRef (decide (v.m_Size = v.m_Capacity)) v1 value >>= fun x =>
        writeSlot v1.m_Extent v1.m_Data v1.m_Size (some x) >>= fun d =>
        moveOut t v1.m_Extent d x value >>= fun d' =>
        Except.ok (({ v1 with m_Data := d', m_Size := incr v1.m_Size } : Vector α),
          t.movedFrom x)) := by
  unfold PushMove
  by_cases hfull : v.m_Size = v.m_Capacity
  · simp only [hfull, if_true]
    rfl
  · simp only [hfull, if_false]
    rfl

theorem Emplace_unfold {β : Type} (t : Platform α) (ctor : β → α) (v : Vector α)
    (arguments : Ref β) :
    Emplace t ctor v arguments =
      ((if v.m_Size = v.m_Capacity then Grow t v else .ok v) >>= fun v1 =>
        construct ctor (decide (v.m_Size = v.m_Capacity)) v1 arguments >>= fun x =>
        writeSlot v1.m_Extent v1.m_Data v1.m_Size (some x) >>= fun d =>
        Except.ok (({ v1 with m_Data := d, m_Size := incr v1.m_Size } : Vector α),
          decr (incr v1.m_Size))) := by
  unfold Emplace
  by_cases hfull : v.m_Size = v.m_Capacity
  · simp only [hfull, if_true]
    rfl
  · simp only [hfull, if_false]
    rfl

/-- The growth step of an insertion that returned: nothing changed when there was room;
on a full vector the capacity is the doubled one and the block is what the allocator
returned for it. -/
theorem grown_returns (t : Platform α) (v v1 : Vector α)
    (h : (if v.m_Size = v.m_Capacity then Grow t v else .ok v) = .ok v1) :
    v1.m_Size = v.m_Size ∧
      ((v.m_Size ≠ v.m_Capacity ∧ v1.m_Capacity = v.m_Capacity ∧ v1.m_Extent = v.m_Extent) ∨
        (v.m_Size = v.m_Capacity ∧ v1.m_Capacity = shl1 v.m_Capacity ∧
          alloc t (shl1 v.m_Capacity) = .ok v1.m_Extent)) := by
  by_cases hfull : v.m_Size = v.m_Capacity
  · rw [if_pos hfull] at h
    obtain ⟨h1, h2, h3, -, -⟩ := SetCapacity_returns t v v1 _ h
    exact ⟨h1, Or.inr ⟨hfull, h2, h3⟩⟩
  · rw [if_neg hfull] at h
    rw [← Except.ok.inj h]
    exact ⟨rfl, Or.inl ⟨hfull, rfl, rfl⟩⟩

/-- The counters a `Push(const T &)` that returned leaves. -/
theorem Push_counters (t : Platform α) (v : Vector α) (value : Ref α) (p : Vector α × α)
    (h : Push t v value = .ok p) :
    p.1.m_Size = incr v.m_Size ∧ v.m_Size < p.1.m_Extent ∧
      ((v.m_Size ≠ v.m_Capacity ∧ p.1.m_Capacity = v.m_Capacity ∧
          p.1.m_Extent = v.m_Extent) ∨
        (v.m_Size = v.m_Capacity ∧ p.1.m_Capacity = shl1 v.m_Capacity ∧
          alloc t (shl1 v.m_Capacity) = .ok p.1.m_Extent)) := by
  rw [Push_unfold] at h
  obtain ⟨v1, hg, h⟩ := bind_eq_ok h
  obtain ⟨x, -, h⟩ := bind_eq_ok h
  obtain ⟨d, hw, h⟩ := bind_eq_ok h
  obtain ⟨hs, hcase⟩ := grown_returns t v v1 hg
  have hlt := (writeSlot_returns hw).1
  rw [← Except.ok.inj h]
  refine ⟨?_, ?_, hcase⟩
  · show incr v1.m_Size = incr v.m_Size
    rw [hs]
  · show v.m_Size < v1.m_Extent
    omega

/-- The counters a `Push(T &&)` that returned leaves. -/
theorem PushMove_counters (t : Platform α) (v : Vector α) (value : Ref α) (p : Vector α × α)
    (h : PushMove t v value = .ok p) :
    p.1.m_Size = incr v.m_Size ∧ v.m_Size < p.1.m_Extent ∧
      ((v.m_Size ≠ v.m_Capacity ∧ p.1.m_Capacity = v.m_Capacity ∧
          p.1.m_Extent = v.m_Extent) ∨
        (v.m_Size = v.m_Capacity ∧ p.1.m_Capacity = shl1 v.m_Capacity ∧
          alloc t (shl1 v.m_Capacity) = .ok p.1.m_Extent)) := by
  rw [PushMove_unfold] at h
  obtain ⟨v1, hg, h⟩ := bind_eq_ok h
  obtain ⟨x, -, h⟩ := bind_eq_ok h
  obtain ⟨d, hw, h⟩ := bind_eq_ok h
  obtain ⟨d', -, h⟩ := bind_eq_ok h
  obtain ⟨hs, hcase⟩ := grown_returns t v v1 hg
  have hlt := (writeSlot_returns hw).1
  rw [← Except.ok.inj h]
  refine ⟨?_, ?_, hcase⟩
  · show incr v1.m_Size = incr v.m_Size
    rw [hs]
  · show v.m_Size < v1.m_Extent
    omega

/-- The counters an `Emplace` that returned leaves, and the slot it returns. -/
theorem Emplace_counters {β : Type} (t : Platform α) (ctor : β → α) (v : Vector α)
    (arguments : Ref β) (p : Vector α × Nat) (h : Emplace t ctor v arguments = .ok p) :
    p.1.m_Size = incr v.m_Size ∧ v.m_Size < p.1.m_Extent ∧
      ((v.m_Size ≠ v.m_Capacity ∧ p.1.m_Capacity = v.m_Capacity ∧
          p.1.m_Extent = v.m_Extent) ∨
        (v.m_Size = v.m_Capacity ∧ p.1.m_Capacity = shl1 v.m_Capacity ∧
          alloc t (shl1 v.m_Capacity) = .ok p.1.m_Extent)) := by
  rw [Emplace_unfold] at h
  obtain ⟨v1, hg, h⟩ := bind_eq_ok h
  obtain ⟨x, -, h⟩ := bind_eq_ok h
  obtain ⟨d, hw, h⟩ := bind_eq_ok h
  obtain ⟨hs, hcase⟩ := grown_returns t v v1 hg
  have hlt := (writeSlot_returns hw).1
  rw [← Except.ok.inj h]
  refine ⟨?_, ?_, hcase⟩
  · show incr v1.m_Size = incr v.m_Size
    rw [hs]
  · show v.m_Size < v1.m_Extent
    omega

/-- An `Erase` that returned changed neither the capacity nor the block, and decremented
the size. -/
theorem Erase_returns (t : Platform α) (safe fast : Bool) (v v' : Vector α) (index : Nat)
    (h : Erase t safe fast v index = .ok v') :
    v'.m_Size = decr v.m_Size ∧ v'.m_Capacity = v.m_Capacity ∧ v'.m_Extent = v.m_Extent := by
  by_cases hassert : (safe && !(decide (index < v.m_Size))) = true
  · unfold Erase at h
    simp only [hassert, if_true] at h
    cases h
  · have hassert' : (safe && !(decide (index < v.m_Size))) = false := by
      simpa using hassert
    rcases Erase_cases t safe fast v index hassert' with h' | ⟨d, h'⟩
    · rw [h'] at h
      cases h
    · rw [h'] at h
      rw [← Except.ok.inj h]
      exact ⟨rfl, rfl, rfl⟩

/-- A `Reserve` that returned set the capacity to its argument and kept the size. -/
theorem Reserve_returns (t : Platform α) (safe : Bool) (v v' : Vector α) (size : Nat)
    (h : Reserve t safe v size = .ok v') :
    v'.m_Size = v.m_Size ∧ v'.m_Capacity = size := by
  unfold Reserve at h
  split at h
  · cases h
  · obtain ⟨h1, h2, -⟩ := SetCapacity_returns t v v' size h
    exact ⟨h1, h2⟩

/-- The shift loop of the ordered erase stays inside the block when it starts at an
index of at least 1. -/
theorem shift_returns (t : Platform α) (cap : Nat) :
    ∀ (n i : Nat) (d : Slots α), 1 ≤ i → i + n ≤ cap →
      ∃ d' : Slots α, forLoop (shiftStep t cap) n i d = .ok d' := by
  intro n
  induction n with
  | zero => intro i d _ _; exact ⟨d, rfl⟩
  | succ n ih =>
    intro i d h1 h2
    have hdec : decr i < cap := by
      unfold decr
      omega
    rw [forLoop_succ]
    unfold shiftStep
    rw [readSlot_of_lt _ (by omega : i < cap), ok_bind,
      writeSlot_of_lt _ _ hdec, ok_bind, writeSlot_of_lt _ _ (by omega : i < cap), ok_bind]
    exact ih (i + 1) _ (by omega) (by omega)

/-- The ordered erase returns when it starts at an index of at least 1, or at the last
element. -/
theorem Erase_ordered_returns (t : Platform α) (safe : Bool) (v : Vector α) (i : Nat)
    (hi : i < v.m_Size) (hle : v.m_Size ≤ v.m_Extent) (h : 1 ≤ i ∨ i + 1 = v.m_Size) :
    ∃ d : Slots α, Erase t safe false v i = .ok
      { m_Size := decr v.m_Size, m_Capacity := v.m_Capacity, m_Data := d,
        m_Extent := v.m_Extent } := by
  rw [Erase_unfold t safe false v i (by simp [hi]), readSlot_of_lt _ (by omega), ok_bind]
  simp only [Bool.false_eq_true, if_false]
  have hd : decr v.m_Size ≤ v.m_Size - 1 := by
    unfold decr
    omega
  have hloop : ∃ d' : Slots α,
      forLoop (shiftStep t v.m_Extent) (decr v.m_Size - i) i v.m_Data = .ok d' := by
    by_cases h1 : 1 ≤ i
    · exact shift_returns t v.m_Extent _ i v.m_Data h1 (by omega)
    · have hz : decr v.m_Size - i = 0 := by omega
      rw [hz]
      exact ⟨_, rfl⟩
  obtain ⟨d', hd'⟩ := hloop
  exact ⟨d', by rw [hd']; rfl⟩

end Vector

/-! ### Calls and sequences of calls -/

/-- The counters an insertion that returned leaves. -/
theorem run_insert_counters {β : Type} (t : Platform α) (safe : Bool) (ctor : β → α)
    (v v' : Vector α) (c : Call α β) (hins : c.isInsert = true)
    (h : c.run t safe ctor v = .ok v') :
    v'.m_Size = incr v.m_Size ∧ v.m_Size < v'.m_Extent ∧
      ((v.m_Size ≠ v.m_Capacity ∧ v'.m_Capacity = v.m_Capacity ∧ v'.m_Extent = v.m_Extent) ∨
        (v.m_Size = v.m_Capacity ∧ v'.m_Capacity = shl1 v.m_Capacity ∧
          alloc t (shl1 v.m_Capacity) = .ok v'.m_Extent)) := by
  cases c with
  | push x =>
    obtain ⟨p, hp, hv⟩ := map_eq_ok h
    rw [← hv]
    exact Vector.Push_counters t v x p hp
  | pushMove x =>
    obtain ⟨p, hp, hv⟩ := map_eq_ok h
    rw [← hv]
    exact Vector.PushMove_counters t v x p hp
  | emplace a =>
    obtain ⟨p, hp, hv⟩ := map_eq_ok h
    rw [← hv]
    exact Vector.Emplace_counters t ctor v a p hp
  | reserve n => cases hins
  | erase f i => cases hins

/-- An insertion of a value from outside the block, with room left or a doubled block
the allocator grants, returns. -/
theorem run_insert_ok {β : Type} (t : Platform α) (safe : Bool) (ctor : β → α)
    (v : Vector α) (c : Call α β) (hins : c.isInsert = true) (hval : c.byValue = true)
    (h1 : 1 ≤ v.m_Capacity) (h2 : v.m_Size ≤ v.m_Capacity) (hb : v.Allocated t)
    (h3 : v.m_Size < v.m_Capacity ∨ 2 * v.m_Capacity * t.sizeofT ≤ t.maxAlloc) :
    ∃ v' : Vector α, c.run t safe ctor v = .ok v' ∧ v'.m_Size = v.m_Size + 1 ∧
      v'.m_Capacity = (if v.m_Size = v.m_Capacity then 2 * v.m_Capacity else v.m_Capacity) ∧
      v'.m_Size ≤ v'.m_Capacity ∧ v'.Allocated t := by
  have hrun : ∀ x : α, ∃ v' : Vector α, (Vector.Push t v (.outside x)).map Prod.fst = .ok v' ∧
      v'.m_Size = v.m_Size + 1 ∧
      v'.m_Capacity = (if v.m_Size = v.m_Capacity then 2 * v.m_Capacity else v.m_Capacity) ∧
      v'.m_Size ≤ v'.m_Capacity ∧ v'.Allocated t := by
    intro x
    obtain ⟨v', hpush, hs, hc, hle', hb', -, -⟩ := Vector.Push_effect t v x h1 h2 hb h3
    exact ⟨v', by rw [hpush]; rfl, hs, hc, hle', hb'⟩
  cases c with
  | push r =>
    cases r with
    | outside x => exact hrun x
    | slot i => cases hval
  | pushMove r =>
    cases r with
    | outside x =>
      obtain ⟨v', hr, rest⟩ := hrun x
      refine ⟨v', ?_, rest⟩
      show (Vector.PushMove t v (.outside x)).map Prod.fst = .ok v'
      rw [Vector.PushMove_outside, ← hr]
      cases Vector.Push t v (.outside x) <;> rfl
    | slot i => cases hval
  | emplace r =>
    cases r with
    | outside a =>
      obtain ⟨v', hr, rest⟩ := hrun (ctor a)
      refine ⟨v', ?_, rest⟩
      show (Vector.Emplace t ctor v (.outside a)).map Prod.fst = .ok v'
      rw [Vector.Emplace_outside, ← hr]
      cases Vector.Push t v (.outside (ctor a)) <;> rfl
    | slot i => cases hval
  | reserve n => cases hins
  | erase f i => cases hins

/-- An insertion into a full vector whose doubled block the allocator refuses stops with
`BadAlloc`. -/
theorem run_insert_refused {β : Type} (t : Platform α) (safe : Bool) (ctor : β → α)
    (v : Vector α) (c : Call α β) (hins : c.isInsert = true)
    (hfull : v.m_Size = v.m_Capacity) (hb : v.Allocated t)
    (hg : ¬ 2 * v.m_Capacity * t.sizeofT ≤ t.maxAlloc) :
    c.run t safe ctor v = .error .BadAlloc := by
  have hgrow := Vector.Grow_refused t v hb hg
  cases c with
  | push r =>
    show (Vector.Push t v r).map Prod.fst = _
    rw [Vector.Push_refused t v r hfull hb hg]
    rfl
  | pushMove r =>
    show (Vector.PushMove t v r).map Prod.fst = _
    rw [Vector.PushMove_unfold, if_pos hfull, hgrow]
    rfl
  | emplace r =>
    show (Vector.Emplace t ctor v r).map Prod.fst = _
    rw [Vector.Emplace_unfold, if_pos hfull, hgrow]
    rfl
  | reserve n => cases hins
  | erase f i => cases hins

/-- A call that returned, made with its documented precondition met, keeps
`m_Size <= m_Capacity` and `1 <= m_Capacity`. -/
theorem run_preserves {β : Type} (t : Platform α) (safe : Bool) (ctor : β → α)
    (v v' : Vector α) (c : Call α β) (hpre : c.Precondition v)
    (h : c.run t safe ctor v = .ok v') :
    (v.m_Size ≤ v.m_Capacity → v'.m_Size ≤ v'.m_Capacity) ∧
      (1 ≤ v.m_Capacity → 1 ≤ v'.m_Capacity) := by
  have hins : c.isInsert = true → (v.m_Size ≤ v.m_Capacity → v'.m_Size ≤ v'.m_Capacity) ∧
      (1 ≤ v.m_Capacity → 1 ≤ v'.m_Capacity) := by
    intro hi
    obtain ⟨hs, hw, hcase⟩ := run_insert_counters t safe ctor v v' c hi h
    obtain ⟨f1, f2, f3⟩ := insert_facts t _ _ _ _ _ _ hs hw hcase
    by_cases hfull : v.m_Size = v.m_Capacity
    · obtain ⟨hc, hpos⟩ := f1 hfull
      exact ⟨fun _ => by omega, fun _ => by omega⟩
    · have hc := f2 hfull
      exact ⟨fun _ => by omega, fun _ => by omega⟩
  cases c with
  | push x => exact hins rfl
  | pushMove x => exact hins rfl
  | emplace a => exact hins rfl
  | reserve n =>
    have hn : v.m_Capacity < n := hpre
    obtain ⟨hs, hc⟩ := Vector.Reserve_returns t safe v v' n h
    exact ⟨fun _ => by omega, fun _ => by omega⟩
  | erase fast i =>
    have hi : i < v.m_Size := hpre
    obtain ⟨hs, hc, -⟩ := Vector.Erase_returns t safe fast v v' i h
    have hd : decr v.m_Size ≤ v.m_Size := by
      unfold decr
      omega
    exact ⟨fun _ => by omega, fun _ => by omega⟩

/-- A `Push`, `Emplace` or `Erase` that returned did not lower the capacity. -/
theorem run_capacity_le {β : Type} (t : Platform α) (safe : Bool) (ctor : β → α)
    (v v' : Vector α) (c : Call α β) (hkind : ∀ n, c ≠ Call.reserve n)
    (h : c.run t safe ctor v = .ok v') : v.m_Capacity ≤ v'.m_Capacity := by
  have hins : c.isInsert = true → v.m_Capacity ≤ v'.m_Capacity := by
    intro hi
    obtain ⟨hs, hw, hcase⟩ := run_insert_counters t safe ctor v v' c hi h
    obtain ⟨f1, f2, f3⟩ := insert_facts t _ _ _ _ _ _ hs hw hcase
    by_cases hfull : v.m_Size = v.m_Capacity
    · have := (f1 hfull).1
      omega
    · have := f2 hfull
      omega
  cases c with
  | push x => exact hins rfl
  | pushMove x => exact hins rfl
  | emplace a => exact hins rfl
  | reserve n => exact absurd rfl (hkind n)
  | erase fast i =>
    obtain ⟨-, hc, -⟩ := Vector.Erase_returns t safe fast v v' i h
    omega

/-- An admissible call on a state whose block was granted for `m_Capacity` slots
returns, and leaves such a state. -/
theorem run_admissible_ok {β : Type} (t : Platform α) (safe : Bool) (ctor : β → α)
    (v : Vector α) (c : Call α β) (hb : v.Allocated t) (hle : v.m_Size ≤ v.m_Capacity)
    (hcap : c.isInsert = true → 1 ≤ v.m_Capacity) (hadm : c.Admissible t v) :
    ∃ v' : Vector α, c.run t safe ctor v = .ok v' ∧ v'.Allocated t := by
  obtain ⟨hval, hin⟩ := hadm
  have hext : v.m_Extent = v.m_Capacity := hb.1
  have hins : c.isInsert = true →
      (v.m_Size < v.m_Capacity ∨ 2 * v.m_Capacity * t.sizeofT ≤ t.maxAlloc) →
      ∃ v' : Vector α, c.run t safe ctor v = .ok v' ∧ v'.Allocated t := by
    intro hi h3
    obtain ⟨v', hr, -, -, -, hb'⟩ := run_insert_ok t safe ctor v c hi hval (hcap hi) hle hb h3
    exact ⟨v', hr, hb'⟩
  cases c with
  | push x => exact hins rfl hin
  | pushMove x => exact hins rfl hin
  | emplace a => exact hins rfl hin
  | reserve n =>
    obtain ⟨hn, hg⟩ : v.m_Capacity < n ∧ n * t.sizeofT ≤ t.maxAlloc := hin
    refine ⟨{ m_Size := v.m_Size, m_Capacity := n,
              m_Data := fun k => if k < v.m_Size then v.m_Data k else none,
              m_Extent := n }, ?_, ?_⟩
    · show Vector.Reserve t safe v n = _
      unfold Vector.Reserve
      have hgt : n > v.m_Capacity := hn
      simp only [hgt, decide_True, Bool.not_true, Bool.and_false, Bool.false_eq_true, if_false]
      exact Vector.SetCapacity_ok t v n (by omega) (by omega) hg
    · exact ⟨rfl, hg⟩
  | erase fast i =>
    obtain ⟨hi, hpol⟩ : i < v.m_Size ∧ (fast = true ∨ 1 ≤ i ∨ i + 1 = v.m_Size) := hin
    cases fast with
    | true => exact ⟨_, Vector.Erase_fast_ok t safe v i hi (by omega), ⟨hb.1, hb.2⟩⟩
    | false =>
      have hpol' : 1 ≤ i ∨ i + 1 = v.m_Size := by
        rcases hpol with h | h
        · cases h
        · exact h
      obtain ⟨d, hrun⟩ := Vector.Erase_ordered_returns t safe v i hi (by omega) hpol'
      exact ⟨_, hrun, ⟨hb.1, hb.2⟩⟩

/-- An admissible call meets its documented precondition. -/
theorem Admissible_Precondition {β : Type} (t : Platform α) (v : Vector α) (c : Call α β)
    (hadm : c.Admissible t v) : c.Precondition v := by
  obtain ⟨-, hin⟩ := hadm
  cases c with
  | push x => trivial
  | pushMove x => trivial
  | emplace a => trivial
  | reserve n => exact hin.1
  | erase fast i => exact hin.1

/-- Every returning sequence of calls that meet their preconditions keeps
`1 <= m_Capacity`. -/
theorem runCalls_capacity_pos {β : Type} (t : Platform α) (safe : Bool) (ctor : β → α) :
    ∀ (cs : List (Call α β)) (v v' : Vector α), 1 ≤ v.m_Capacity →
      PreconditionSeq t safe ctor v cs → runCalls t safe ctor v cs = .ok v' →
      1 ≤ v'.m_Capacity := by
  intro cs
  induction cs with
  | nil =>
    intro v v' h1 _ h
    rw [← Except.ok.inj h]
    exact h1
  | cons c cs ih =>
    intro v v' h1 hpre h
    obtain ⟨hc, hrest⟩ : c.Precondition v ∧
        (match c.run t safe ctor v with
          | .ok v' => PreconditionSeq t safe ctor v' cs
          | .error _ => True) := hpre
    obtain ⟨v1, hrun, h⟩ := bind_eq_ok h
    rw [hrun] at hrest
    exact ih v1 v' ((run_preserves t safe ctor v v1 c hc hrun).2 h1) hrest h

/-- Every admissible sequence of calls on a state with `1 <= m_Capacity`,
`m_Size <= m_Capacity` and a block granted for `m_Capacity` slots returns. -/
theorem runCalls_admissible_ok {β : Type} (t : Platform α) (safe : Bool) (ctor : β → α) :
    ∀ (cs : List (Call α β)) (v : Vector α), v.Allocated t → 1 ≤ v.m_Capacity →
      v.m_Size ≤ v.m_Capacity → AdmissibleSeq t safe ctor v cs →
      ∃ v' : Vector α, runCalls t safe ctor v cs = .ok v' := by
  intro cs
  induction cs with
  | nil => intro v _ _ _ _; exact ⟨v, rfl⟩
  | cons c cs ih =>
    intro v hb h1 h2 hadm
    obtain ⟨hc, hrest⟩ : c.Admissible t v ∧
        (match c.run t safe ctor v with
          | .ok v' => AdmissibleSeq t safe ctor v' cs
          | .error _ => True) := hadm
    obtain ⟨v1, hrun, hb1⟩ := run_admissible_ok t safe ctor v c hb h2 (fun _ => h1) hc
    rw [hrun] at hrest
    obtain ⟨hle1, hcap1⟩ :=
      run_preserves t safe ctor v v1 c (Admissible_Precondition t v c hc) hrun
    obtain ⟨v2, hrun2⟩ := ih v1 hb1 (hcap1 h1) (hle1 h2) hrest
    refine ⟨v2, ?_⟩
    show (c.run t safe ctor v >>= fun v' => runCalls t safe ctor v' cs) = _
    rw [hrun, ok_bind, hrun2]

/-- Every returning sequence of insertions on a state whose capacity is a power of two
and whose block was granted for it: the size grew by the number of calls, the capacity
is a power of two, and the bounds hold. -/
theorem inserts_returning {β : Type} (t : Platform α) (safe : Bool) (ctor : β → α) :
    ∀ (cs : List (Call α β)) (v v' : Vector α), (∀ c ∈ cs, c.isInsert = true) →
      v.Allocated t → v.m_Size ≤ v.m_Capacity → (∃ k, v.m_Capacity = 2 ^ k) →
      runCalls t safe ctor v cs = .ok v' →
      v'.m_Size = v.m_Size + cs.length ∧ v'.m_Size ≤ v'.m_Capacity ∧
        (∃ k, v'.m_Capacity = 2 ^ k) := by
  intro cs
  induction cs with
  | nil =>
    intro v v' _ _ hle hpow h
    rw [← Except.ok.inj h]
    exact ⟨rfl, hle, hpow⟩
  | cons c cs ih =>
    intro v v' hins hb hle hpow h
    obtain ⟨v1, hrun, h⟩ := bind_eq_ok h
    obtain ⟨hs, hw, hcase⟩ :=
      run_insert_counters t safe ctor v v1 c (hins c (List.mem_cons_self c cs)) hrun
    obtain ⟨f1, f2, -⟩ := insert_facts t _ _ _ _ _ _ hs hw hcase
    obtain ⟨g1, g2, g3, g4, -⟩ := insert_allocated t _ _ _ _ _ _ hb.1 hb.2 hs hw hcase
    obtain ⟨k, hk⟩ := hpow
    have hpow1 : ∃ k, v1.m_Capacity = 2 ^ k := by
      by_cases hfull : v.m_Size = v.m_Capacity
      · refine ⟨k + 1, ?_⟩
        rw [(f1 hfull).1, hk, Nat.pow_succ]
        omega
      · exact ⟨k, by rw [f2 hfull, hk]⟩
    obtain ⟨r1, r2, r3⟩ :=
      ih v1 v' (fun c' hc' => hins c' (List.mem_cons_of_mem c hc')) ⟨g3, g4⟩ g2 hpow1 h
    have hlen : (c :: cs).length = cs.length + 1 := rfl
    exact ⟨by omega, r2, r3⟩

/-- A sequence of insertions of values from outside the block returns when the allocator
grants a block of twice as many slots as the final size. -/
theorem inserts_run {β : Type} (t : Platform α) (safe : Bool) (ctor : β → α) (N : Nat)
    (hN : 2 * N * t.sizeofT ≤ t.maxAlloc) :
    ∀ (cs : List (Call α β)) (v : Vector α),
      (∀ c ∈ cs, c.isInsert = true ∧ c.byValue = true) →
      v.Allocated t → 1 ≤ v.m_Capacity → v.m_Size ≤ v.m_Capacity →
      v.m_Size + cs.length ≤ N →
      ∃ v' : Vector α, runCalls t safe ctor v cs = .ok v' := by
  intro cs
  induction cs with
  | nil => intro v _ _ _ _ _; exact ⟨v, rfl⟩
  | cons c cs ih =>
    intro v hins hb h1 h2 hn
    have hlen : (c :: cs).length = cs.length + 1 := rfl
    obtain ⟨hi, hv⟩ := hins c (List.mem_cons_self c cs)
    have h3 : v.m_Size < v.m_Capacity ∨ 2 * v.m_Capacity * t.sizeofT ≤ t.maxAlloc := by
      by_cases hfull : v.m_Size = v.m_Capacity
      · right
        have hle : 2 * v.m_Capacity ≤ 2 * N := by omega
        exact le_trans (Nat.mul_le_mul_right t.sizeofT hle) hN
      · left
        omega
    obtain ⟨v1, hrun, hs1, hc1, hle1, hb1⟩ := run_insert_ok t safe ctor v c hi hv h1 h2 hb h3
    have hcap1 : 1 ≤ v1.m_Capacity := by
      rw [hc1]
      split <;> omega
    obtain ⟨v2, hrun2⟩ :=
      ih v1 (fun c' hc' => hins c' (List.mem_cons_of_mem c hc')) hb1 hcap1 hle1 (by omega)
    refine ⟨v2, ?_⟩
    show (c.run t safe ctor v >>= fun v' => runCalls t safe ctor v' cs) = _
    rw [hrun, ok_bind, hrun2]

/-- A sequence of insertions of values from outside the block can only stop at an
allocation the allocator refuses. -/
theorem inserts_error {β : Type} (t : Platform α) (safe : Bool) (ctor : β → α) :
    ∀ (cs : List (Call α β)) (v : Vector α) (e : Fault),
      (∀ c ∈ cs, c.isInsert = true ∧ c.byValue = true) →
      v.Allocated t → 1 ≤ v.m_Capacity → v.m_Size ≤ v.m_Capacity →
      runCalls t safe ctor v cs = .error e → e = .BadAlloc := by
  intro cs
  induction cs with
  | nil => intro v e _ _ _ _ h; cases h
  | cons c cs ih =>
    intro v e hins hb h1 h2 h
    obtain ⟨hi, hv⟩ := hins c (List.mem_cons_self c cs)
    have h' : (c.run t safe ctor v >>= fun v' => runCalls t safe ctor v' cs) = .error e := h
    by_cases h3 : v.m_Size < v.m_Capacity ∨ 2 * v.m_Capacity * t.sizeofT ≤ t.maxAlloc
    · obtain ⟨v1, hrun, hs1, hc1, hle1, hb1⟩ :=
        run_insert_ok t safe ctor v c hi hv h1 h2 hb h3
      have hcap1 : 1 ≤ v1.m_Capacity := by
        rw [hc1]
        split <;> omega
      rw [hrun, ok_bind] at h'
      exact ih v1 e (fun c' hc' => hins c' (List.mem_cons_of_mem c hc')) hb1 hcap1 hle1 h'
    · have hfull : v.m_Size = v.m_Capacity := by omega
      rw [run_insert_refused t safe ctor v c hi hfull hb (fun hg => h3 (Or.inr hg)),
        error_bind] at h'
      rw [← Except.error.inj h']

/-- Insertions of values from outside the block into a vector with room for them: none
grows the block. -/
theorem inserts_without_growth {β : Type} (t : Platform α) (safe : Bool) (ctor : β → α) :
    ∀ (cs : List (Call α β)) (v : Vector α),
      (∀ c ∈ cs, c.isInsert = true ∧ c.byValue = true) → v.Allocated t →
      v.m_Size + cs.length ≤ v.m_Capacity →
      ∃ v' : Vector α, runCalls t safe ctor v cs = .ok v' ∧ v'.m_Capacity = v.m_Capacity ∧
        v'.m_Size = v.m_Size + cs.length ∧ v'.Allocated t := by
  intro cs
  induction cs with
  | nil => intro v _ hb _; exact ⟨v, rfl, rfl, rfl, hb⟩
  | cons c cs ih =>
    intro v hins hb hroom
    have hlen : (c :: cs).length = cs.length + 1 := rfl
    obtain ⟨hi, hv⟩ := hins c (List.mem_cons_self c cs)
    obtain ⟨v1, hrun1, hs1, hc1, -, hb1⟩ :=
      run_insert_ok t safe ctor v c hi hv (by omega) (by omega) hb (Or.inl (by omega))
    rw [if_neg (by omega)] at hc1
    obtain ⟨v2, hrun2, hc2, hs2, hb2⟩ :=
      ih v1 (fun c' hc' => hins c' (List.mem_cons_of_mem c hc')) hb1 (by omega)
    refine ⟨v2, ?_, by omega, by omega, hb2⟩
    show (c.run t safe ctor v >>= fun v' => runCalls t safe ctor v' cs) = _
    rw [hrun1, ok_bind, hrun2]

end Lemmas

/-! ## Theorems -/

namespace Vector

variable {α : Type}

/-! ### C1 -/

/-- C1: the ordered `Erase(1)` on the vector with contents `[10, 20, 30, 40]` (built by
four pushes, `Size()` 4, `Capacity()` 4) leaves `Size() == 3` and the live contents
`[20, 30, 30]`, in either configuration: the shift loop stores slot `i` into slot `i - 1`
from `i = index` on, so the element before the erased one is overwritten and the last
element is lost, where ordered erase is to leave `[10, 30, 40]`. -/
theorem Erase_ordered_overwrites_predecessor :
    (runCalls Platform.u64 false (fun n : Nat => n) (new : Vector Nat)
        [Call.push (.outside 10), Call.push (.outside 20), Call.push (.outside 30),
          Call.push (.outside 40)]).map
        (fun v => (v.Size, v.Capacity, v.contents))
      = .ok (4, 4, [.ok 10, .ok 20, .ok 30, .ok 40]) ∧
    (runCalls Platform.u64 false (fun n : Nat => n) (new : Vector Nat)
        [Call.push (.outside 10), Call.push (.outside 20), Call.push (.outside 30),
          Call.push (.outside 40), Call.erase false 1]).map
        (fun v => (v.Size, v.contents))
      = .ok (3, [.ok 20, .ok 30, .ok 30]) ∧
    (runCalls Platform.u64 true (fun n : Nat => n) (new : Vector Nat)
        [Call.push (.outside 10), Call.push (.outside 20), Call.push (.outside 30),
          Call.push (.outside 40), Call.erase false 1]).map
        (fun v => (v.Size, v.contents))
      = .ok (3, [.ok 20, .ok 30, .ok 30]) :=
  ⟨rfl, rfl, rfl⟩

/-! ### C2 -/

/-- C2: for every vector whose live contents are the list `xs` (with `Size()` a `size_t`
value) and every index `i < Size()`, the fast `Erase<true>(i)` returns and leaves
`Size() == |xs| - 1`; if `i < |xs| - 1` the element at index `i` is the former last
element `xs[|xs| - 1]`; and every other index `j < |xs| - 1`, `j != i`, still holds
`xs[j]`. -/
theorem Erase_fast_spec (t : Platform α) (safe : Bool) (v : Vector α) (xs : List α) (i : Nat)
    (hxs : v.contents = xs.map Except.ok) (hr : v.Size < SIZE_RANGE) (hi : i < v.Size) :
    ∃ v' : Vector α, Erase t safe true v i = .ok v' ∧ v'.Size = xs.length - 1 ∧
      (i < xs.length - 1 → ∀ a, xs[xs.length - 1]? = some a → At safe v' i = .ok a) ∧
      (∀ j, j < xs.length - 1 → j ≠ i → ∀ a, xs[j]? = some a → At safe v' j = .ok a) := by
  unfold Size SIZE_RANGE at *
  obtain ⟨hlen, hslot⟩ := contents_eq v xs hxs
  have hle : v.m_Size ≤ v.m_Extent := contents_in_block v xs hxs
  have hdec : decr v.m_Size = v.m_Size - 1 := decr_of_pos (by omega) (by omega)
  refine ⟨_, Erase_fast_ok t safe v i hi hle, ?_, ?_, ?_⟩
  all_goals rw [hdec]
  · show v.m_Size - 1 = xs.length - 1
    rw [hlen]
  · intro hlt a ha
    obtain ⟨hc, hd⟩ := hslot _ a ha
    rw [At_of_lt safe _ i (by show i < v.m_Size - 1; omega)]
    refine deref_of_some _ i a (by show i < v.m_Extent; omega) ?_
    show (if i = i then v.m_Data (v.m_Size - 1) else v.m_Data i) = some a
    rw [if_pos rfl, hlen]
    exact hd
  · intro j hj hne a ha
    obtain ⟨hc, hd⟩ := hslot j a ha
    rw [At_of_lt safe _ j (by show j < v.m_Size - 1; omega)]
    refine deref_of_some _ j a hc ?_
    show (if j = i then v.m_Data (v.m_Size - 1) else v.m_Data j) = some a
    rw [if_neg hne]
    exact hd

/-- Witness of `Erase_fast_spec` (C2): the fast `Erase(1)` on the four-slot vector with
live contents `[10, 20, 30, 40]`. -/
theorem Erase_fast_spec_witness :
    ∃ v' : Vector Nat,
      Erase Platform.u64 true true
          { m_Size := 4, m_Capacity := 4, m_Data := fun k => some (10 * (k + 1)),
            m_Extent := 4 } 1
        = .ok v' ∧
      v'.Size = [10, 20, 30, 40].length - 1 ∧
      (1 < [10, 20, 30, 40].length - 1 →
        ∀ a, [10, 20, 30, 40][[10, 20, 30, 40].length - 1]? = some a → At true v' 1 = .ok a) ∧
      (∀ j, j < [10, 20, 30, 40].length - 1 → j ≠ 1 →
        ∀ a, [10, 20, 30, 40][j]? = some a → At true v' j = .ok a) :=
  Erase_fast_spec Platform.u64 true
    { m_Size := 4, m_Capacity := 4, m_Data := fun k => some (10 * (k + 1)), m_Extent := 4 }
    [10, 20, 30, 40] 1 rfl (by decide) (by decide)

/-! ### C3 -/

/-- C3: starting from a default-constructed vector, after every sequence of `n` `Push`
calls (either overload) that returns, `Size() == n`, `Capacity()` is a power of two and
`Capacity() >= Size()`.  A sequence of pushes of values from outside the block does
return when the allocator grants a block of `2 * n` elements, and the only way it can
stop is an allocation the allocator refuses. -/
theorem pushes_size_capacity {β : Type} (t : Platform α) (safe : Bool) (ctor : β → α)
    (cs : List (Call α β)) (hpush : ∀ c ∈ cs, c.isPush = true) :
    (∀ v : Vector α, runCalls t safe ctor new cs = .ok v →
      v.Size = cs.length ∧ (∃ k, v.Capacity = 2 ^ k) ∧ v.Capacity ≥ v.Size) ∧
    ((∀ c ∈ cs, c.byValue = true) →
      (2 * cs.length * t.sizeofT ≤ t.maxAlloc →
        ∃ v : Vector α, runCalls t safe ctor new cs = .ok v) ∧
      (∀ e : Fault, runCalls t safe ctor new cs = .error e → e = .BadAlloc)) := by
  have hins : ∀ c ∈ cs, c.isInsert = true := by
    intro c hc
    have := hpush c hc
    cases c <;> first | rfl | cases this
  refine ⟨?_, ?_⟩
  · intro v h
    obtain ⟨h1, h2, h3⟩ :=
      inserts_returning t safe ctor cs new v hins (Allocated_new t) (Nat.zero_le 1) ⟨0, rfl⟩ h
    refine ⟨?_, h3, h2⟩
    show v.m_Size = cs.length
    rw [h1]
    show 0 + cs.length = cs.length
    omega
  · intro hval
    have hboth : ∀ c ∈ cs, c.isInsert = true ∧ c.byValue = true :=
      fun c hc => ⟨hins c hc, hval c hc⟩
    refine ⟨?_, ?_⟩
    · intro hN
      exact inserts_run t safe ctor cs.length hN cs new hboth (Allocated_new t)
        (Nat.le_refl 1) (Nat.zero_le 1) (by show 0 + cs.length ≤ cs.length; omega)
    · intro e h
      exact inserts_error t safe ctor cs new e hboth (Allocated_new t) (Nat.le_refl 1)
        (Nat.zero_le 1) h

/-- Witness of `pushes_size_capacity` (C3): five pushes, by copy and by move, through
three growths. -/
theorem pushes_size_capacity_witness :
    ∃ v : Vector Nat,
      runCalls Platform.u64 true (fun n : Nat => n) new
        [Call.push (.outside 1), Call.pushMove (.outside 2), Call.push (.outside 3),
          Call.pushMove (.outside 4), Call.push (.outside 5)] = .ok v ∧
      v.Size = 5 ∧ (∃ k, v.Capacity = 2 ^ k) ∧ v.Capacity ≥ v.Size := by
  have h := pushes_size_capacity Platform.u64 true (fun n : Nat => n)
    [Call.push (.outside 1), Call.pushMove (.outside 2), Call.push (.outside 3),
      Call.pushMove (.outside 4), Call.push (.outside 5)] (by simp [Call.isPush])
  obtain ⟨v, hv⟩ := (h.2 (by simp [Call.byValue])).1 (by decide)
  exact ⟨v, hv, h.1 v hv⟩

/-! ### C4 -/

/-- C4, amended: for every vector state with `1 <= Capacity()`, `Size() <= Capacity()`
and a block granted by the allocator for exactly `Capacity()` slots, and every value `x`
held outside the block: when `Size() < Capacity()` or the allocator grants the doubled
block of `2 * Capacity()` elements, `Push(const T &)` returns `x`, `Push(T &&)` returns
its moved-from argument, and afterwards `At(Size() - 1)` returns `x`, whether or not the
push grew the vector; otherwise both overloads stop at the refused allocation. -/
theorem Push_then_At (t : Platform α) (safe : Bool) (v : Vector α) (x : α)
    (h1 : 1 ≤ v.Capacity) (h2 : v.Size ≤ v.Capacity) (hb : v.Allocated t) :
    ((v.Size < v.Capacity ∨ 2 * v.Capacity * t.sizeofT ≤ t.maxAlloc) →
      ∃ v' : Vector α, Push t v (.outside x) = .ok (v', x) ∧
        PushMove t v (.outside x) = .ok (v', t.movedFrom x) ∧
        At safe v' (decr v'.Size) = .ok x) ∧
    (¬ (v.Size < v.Capacity ∨ 2 * v.Capacity * t.sizeofT ≤ t.maxAlloc) →
      Push t v (.outside x) = .error .BadAlloc ∧
      PushMove t v (.outside x) = .error .BadAlloc) := by
  unfold Size Capacity at *
  have hc := hb.capacity_lt
  refine ⟨?_, ?_⟩
  · intro h3
    obtain ⟨v', hpush, hs, -, hle, hb', hd, -⟩ := Push_effect t v x h1 h2 hb h3
    refine ⟨v', hpush, by rw [PushMove_outside, hpush]; rfl, ?_⟩
    have hidx : decr v'.m_Size = v.m_Size := by
      rw [hs, decr_of_pos (by omega) (by omega)]
      omega
    have hext := hb'.1
    rw [hidx, At_of_lt safe v' v.m_Size (by omega)]
    exact deref_of_some v' v.m_Size x (by omega) hd
  · intro h3
    have hfull : v.m_Size = v.m_Capacity := by omega
    have hg : ¬ 2 * v.m_Capacity * t.sizeofT ≤ t.maxAlloc := fun hg => h3 (Or.inr hg)
    refine ⟨Push_refused t v _ hfull hb hg, ?_⟩
    rw [PushMove_outside, Push_refused t v _ hfull hb hg]
    rfl

/-- Witness of `Push_then_At` (C4): a push into the full vector with live contents
`[10, 20]`, which grows it. -/
theorem Push_then_At_witness :
    ∃ v' : Vector Nat,
      Push Platform.u64
        { m_Size := 2, m_Capacity := 2, m_Data := fun k => some (10 * (k + 1)), m_Extent := 2 }
        (.outside 7) = .ok (v', 7) ∧
      PushMove Platform.u64
        { m_Size := 2, m_Capacity := 2, m_Data := fun k => some (10 * (k + 1)), m_Extent := 2 }
        (.outside 7) = .ok (v', Platform.u64.movedFrom 7) ∧
      At true v' (decr v'.Size) = .ok 7 :=
  (Push_then_At Platform.u64 true
    { m_Size := 2, m_Capacity := 2, m_Data := fun k => some (10 * (k + 1)), m_Extent := 2 }
    7 (by decide) (by decide) ⟨rfl, by decide⟩).1 (Or.inr (by decide))

/-- C4 as stated fails in three ways.  After `Reserve(2 ^ 61)` on a default-constructed
vector of 8-byte elements the state has `1 <= Capacity()` and `Size() <= Capacity()`,
but the byte count `2 ^ 61 * 8` wrapped to 0 and `Push` stores outside the block.
`Push(T &&)` of a sequence returns its moved-from argument, the empty sequence, not `x`.
And `v.Push(v[0])` on the full vector `Vector(1, 5)` reads its argument after `Grow` has
released the block it refers into. -/
theorem Push_then_At_refuted :
    (∃ v : Vector Nat, Reserve Platform.u64 false new (2 ^ 61) = .ok v ∧
      1 ≤ v.Capacity ∧ v.Size ≤ v.Capacity ∧
      Push Platform.u64 v (.outside 1) = .error .OutOfBlock ∧
      PushMove Platform.u64 v (.outside 1) = .error .OutOfBlock) ∧
    (∃ v' : Vector (List Nat),
      PushMove Platform.seq new (.outside [1, 2, 3]) = .ok (v', []) ∧
      At true v' (decr v'.Size) = .ok [1, 2, 3]) ∧
    (∃ v : Vector Nat, sized Platform.u64 1 5 = .ok v ∧ 1 ≤ v.Capacity ∧
      v.Size ≤ v.Capacity ∧ Push Platform.u64 v (.slot 0) = .error .Dangling ∧
      PushMove Platform.u64 v (.slot 0) = .error .Dangling) :=
  ⟨⟨{ m_Size := 0, m_Capacity := 2 ^ 61, m_Data := rawBlock Nat, m_Extent := 0 }, rfl,
      by decide, by decide, rfl, rfl⟩,
    ⟨_, rfl, rfl⟩,
    ⟨_, sized_ok Platform.u64 1 5 (by decide), by decide, by decide, rfl, rfl⟩⟩

/-! ### C5 -/

/-- C5, amended: for every count `N` whose `N` elements the allocator grants and every
value `value`, the sized constructor `Vector(N, value)` returns a vector with
`Size() == N`, `Capacity() == N` and `At(i) == value` for every `i < N`, in the checked
and in the unchecked configuration; for every other count it does not return: the
allocation is refused, or the byte count wrapped and the fill loop stores outside the
block. -/
theorem sized_spec (t : Platform α) (N : Nat) (value : α) (safe : Bool) :
    (N * t.sizeofT ≤ t.maxAlloc →
      ∃ v : Vector α, sized t N value = .ok v ∧ v.Size = N ∧ v.Capacity = N ∧
        ∀ i, i < N → At safe v i = .ok value) ∧
    (¬ N * t.sizeofT ≤ t.maxAlloc →
      ∃ e : Fault, sized t N value = .error e ∧ (e = .BadAlloc ∨ e = .OutOfBlock)) := by
  refine ⟨?_, ?_⟩
  · intro hN
    refine ⟨_, sized_ok t N value hN, rfl, rfl, ?_⟩
    intro i hi
    rw [At_of_lt safe _ i hi]
    exact deref_of_some _ i value hi (by simp [hi])
  · intro hN
    cases h : sized t N value with
    | ok v => exact absurd (sized_returns t N value v h).1 hN
    | error e => exact ⟨e, rfl, sized_error t N value e h⟩

/-- Witness of `sized_spec` (C5): `Vector(3, 7)` of 8-byte elements. -/
theorem sized_spec_witness :
    ∃ v : Vector Nat, sized Platform.u64 3 7 = .ok v ∧ v.Size = 3 ∧ v.Capacity = 3 ∧
      ∀ i, i < 3 → At true v i = .ok 7 :=
  (sized_spec Platform.u64 3 7 true).1 (by decide)

/-- C5 as stated fails for counts whose byte count the allocator does not grant: for
8-byte elements `Vector(2 ^ 61, 0)` asks `operator new` for `2 ^ 61 * 8` bytes, which is
0 as a `size_t`, and the fill loop stores into slot 0 of a block without slots; and
`Vector(2 ^ 60, 0)` asks for `2 ^ 63` bytes, which no allocator grants. -/
theorem sized_spec_refuted :
    alloc Platform.u64 (2 ^ 61) = .ok 0 ∧
    sized Platform.u64 (2 ^ 61) 0 = .error .OutOfBlock ∧
    sized Platform.u64 (2 ^ 60) 0 = .error .BadAlloc := by
  have ha : alloc Platform.u64 (2 ^ 61) = .ok 0 := rfl
  refine ⟨ha, ?_, rfl⟩
  unfold sized
  rw [ha, ok_bind, forLoop_first_error _ _ 0 (rawBlock Nat) .OutOfBlock (by decide)
    (writeSlot_of_ge _ _ (Nat.le_refl 0))]
  rfl

/-! ### C6 -/

/-- C6, amended: for every vector state with `Size() <= Capacity()` whose block holds
the `Size()` live elements, and every `newCapacity > Capacity()` whose `newCapacity`
elements the allocator grants, `Reserve(newCapacity)` returns, and afterwards
`Capacity() == newCapacity`, `Size()` is unchanged and `At(i)` is what it was before the
call for every `i < Size()`, in the checked and in the unchecked configuration. -/
theorem Reserve_spec (t : Platform α) (safe : Bool) (v : Vector α) (newCapacity : Nat)
    (hsize : v.Size ≤ v.Capacity) (hnew : newCapacity > v.Capacity)
    (hext : v.Size ≤ v.m_Extent) (hgrant : newCapacity * t.sizeofT ≤ t.maxAlloc) :
    ∃ v' : Vector α, Reserve t safe v newCapacity = .ok v' ∧ v'.Capacity = newCapacity ∧
      v'.Size = v.Size ∧ ∀ i, i < v.Size → At safe v' i = At safe v i := by
  unfold Size Capacity at *
  refine ⟨{ m_Size := v.m_Size, m_Capacity := newCapacity,
            m_Data := fun k => if k < v.m_Size then v.m_Data k else none,
            m_Extent := newCapacity }, ?_, rfl, rfl, ?_⟩
  · unfold Reserve
    simp only [hnew, decide_True, Bool.not_true, Bool.and_false, Bool.false_eq_true, if_false]
    exact SetCapacity_ok t v newCapacity hext (by omega) hgrant
  · intro i hi
    rw [At_of_lt safe v i hi, At_of_lt safe _ i (by exact hi)]
    unfold deref
    rw [readSlot_of_lt _ (by show i < newCapacity; omega),
      readSlot_of_lt _ (by omega : i < v.m_Extent)]
    simp [hi]

/-- Witness of `Reserve_spec` (C6): the full vector with live contents `[10, 20, 30]`
reserved to 8 slots. -/
theorem Reserve_spec_witness :
    ∃ v' : Vector Nat,
      Reserve Platform.u64 true
        { m_Size := 3, m_Capacity := 3, m_Data := fun k => some (10 * (k + 1)), m_Extent := 3 }
        8 = .ok v' ∧
      v'.Capacity = 8 ∧
      v'.Size = Size { m_Size := 3, m_Capacity := 3,
                       m_Data := fun k => (some (10 * (k + 1)) : Option Nat), m_Extent := 3 } ∧
      ∀ i, i < Size { m_Size := 3, m_Capacity := 3,
                      m_Data := fun k => (some (10 * (k + 1)) : Option Nat), m_Extent := 3 } →
        At true v' i
          = At true { m_Size := 3, m_Capacity := 3, m_Data := fun k => some (10 * (k + 1)),
                      m_Extent := 3 } i :=
  Reserve_spec Platform.u64 true
    { m_Size := 3, m_Capacity := 3, m_Data := fun k => some (10 * (k + 1)), m_Extent := 3 }
    8 (by decide) (by decide) (by decide) (by decide)

/-- C6 as stated fails for `Reserve(2 ^ 61)` on the three-element vector `Vector(3, 7)` of
8-byte elements: `Size() <= Capacity()` and `2 ^ 61 > Capacity()`, but the byte count
`2 ^ 61 * 8` is 0 as a `size_t`, and `SetCapacity` relocates the first element into a
block without slots, in either configuration. -/
theorem Reserve_spec_refuted :
    ∃ v : Vector Nat, sized Platform.u64 3 7 = .ok v ∧ v.Size ≤ v.Capacity ∧
      2 ^ 61 > v.Capacity ∧ alloc Platform.u64 (2 ^ 61) = .ok 0 ∧
      Reserve Platform.u64 false v (2 ^ 61) = .error .OutOfBlock ∧
      Reserve Platform.u64 true v (2 ^ 61) = .error .OutOfBlock :=
  ⟨_, sized_ok Platform.u64 3 7 (by decide), by decide, by decide, rfl, rfl, rfl⟩

/-! ### C7 -/

/-- C7, amended: `Size() <= Capacity()` holds after the default constructor and after
every sized constructor call that returns (any count `N`, 0 included, whose `N` elements
the allocator grants); it holds after every `Push`, `Emplace`,
`Reserve(newCapacity > Capacity())` and `Erase(index < Size())` that returns on a state
with `Size() <= Capacity()`; a `Push` or `Emplace` returns only on a state with
`Capacity() >= 1`; and a call does return on a state whose block was granted for
`Capacity()` slots when it is admissible: an insertion of a value from outside the block
with `Capacity() >= 1` and room left or a doubled block the allocator grants, a `Reserve`
the allocator grants, a fast erase, an ordered erase of an index that is at least 1 or the
last one. -/
theorem size_le_capacity_preserved {β : Type} (t : Platform α) (safe : Bool) (ctor : β → α)
    (v : Vector α) (c : Call α β) (hinv : v.Size ≤ v.Capacity) (hpre : c.Precondition v) :
    (new : Vector α).Size ≤ (new : Vector α).Capacity ∧
    (∀ (N : Nat) (x : α) (v0 : Vector α), sized t N x = .ok v0 → v0.Size ≤ v0.Capacity) ∧
    (∀ (N : Nat) (x : α), N * t.sizeofT ≤ t.maxAlloc →
      ∃ v0 : Vector α, sized t N x = .ok v0) ∧
    (∀ v' : Vector α, c.run t safe ctor v = .ok v' → v'.Size ≤ v'.Capacity) ∧
    (c.isInsert = true → (∃ v' : Vector α, c.run t safe ctor v = .ok v') →
      1 ≤ v.Capacity) ∧
    (v.Allocated t → (c.isInsert = true → 1 ≤ v.Capacity) → c.Admissible t v →
      ∃ v' : Vector α, c.run t safe ctor v = .ok v') := by
  unfold Size Capacity at *
  refine ⟨Nat.zero_le 1, ?_, fun N x hN => ⟨_, sized_ok t N x hN⟩, ?_, ?_, ?_⟩
  · intro N x v0 h
    obtain ⟨-, h1, h2, -⟩ := sized_returns t N x v0 h
    omega
  · intro v' h
    exact (run_preserves t safe ctor v v' c hpre h).1 hinv
  · intro hins ⟨v', h⟩
    obtain ⟨hs, hw, hcase⟩ := run_insert_counters t safe ctor v v' c hins h
    obtain ⟨f1, -, -⟩ := insert_facts t _ _ _ _ _ _ hs hw hcase
    by_cases hfull : v.m_Size = v.m_Capacity
    · exact (f1 hfull).2
    · omega
  · intro hb hcap hadm
    obtain ⟨v', h, -⟩ := run_admissible_ok t safe ctor v c hb hinv hcap hadm
    exact ⟨v', h⟩

/-- Witness of `size_le_capacity_preserved` (C7): a `Push` into the full two-element
vector `Vector(2, 0)`, which grows it. -/
theorem size_le_capacity_preserved_witness :
    ∃ v' : Vector Nat,
      (Call.push (.outside 5) : Call Nat Nat).run Platform.u64 true (fun n : Nat => n)
        { m_Size := 2, m_Capacity := 2, m_Data := fun _ => some 0, m_Extent := 2 } = .ok v' ∧
      v'.Size ≤ v'.Capacity := by
  have h := size_le_capacity_preserved Platform.u64 true (fun n : Nat => n)
    { m_Size := 2, m_Capacity := 2, m_Data := fun _ => some 0, m_Extent := 2 }
    (Call.push (.outside 5) : Call Nat Nat) (Nat.le_refl 2) trivial
  obtain ⟨v', hv⟩ := h.2.2.2.2.2 ⟨rfl, by decide⟩ (fun _ => by decide)
    ⟨rfl, Or.inr (by decide)⟩
  exact ⟨v', hv, h.2.2.2.1 v' hv⟩

/-- C7 as stated fails on `Vector(0, x)`: it has `Size() == Capacity() == 0`, `Grow`
leaves `Capacity() == 0 << 1 == 0` over a block without slots, and `Push` and `Emplace`
then store into slot 0, outside the block; the size the body goes on to set is 1, above
the capacity 0. -/
theorem size_le_capacity_not_preserved :
    ∃ v : Vector Nat, sized Platform.u64 0 0 = .ok v ∧ v.Size ≤ v.Capacity ∧
      Push Platform.u64 v (.outside 1) = .error .OutOfBlock ∧
      PushMove Platform.u64 v (.outside 1) = .error .OutOfBlock ∧
      Emplace Platform.u64 (fun n : Nat => n) v (.outside 1) = .error .OutOfBlock ∧
      ∃ v1 : Vector Nat, Grow Platform.u64 v = .ok v1 ∧ v1.Capacity = 0 ∧
        writeSlot v1.m_Extent v1.m_Data v1.m_Size (some 1) = .error .OutOfBlock ∧
        ¬ (incr v1.m_Size ≤ v1.Capacity) :=
  ⟨_, sized_ok Platform.u64 0 0 (by decide), Nat.le_refl 0, rfl, rfl, rfl,
    _, rfl, rfl, rfl, by decide⟩

/-! ### C8 -/

/-- C8, amended: after the default constructor, or a sized constructor call with a count
`N >= 1` that returned, `Capacity() >= 1`, and `Capacity() >= 1` holds after every
sequence of `Push`, `Emplace`, `Erase` and `Reserve` calls that returns, each call made
with its documented precondition met (`Reserve(newCapacity > Capacity())`,
`Erase(index < Size())`); such a sequence does return when each call is admissible on the
state it is applied to. -/
theorem capacity_ge_one {β : Type} (t : Platform α) (safe : Bool) (ctor : β → α)
    (v0 : Vector α) (cs : List (Call α β))
    (hstart : v0 = new ∨ ∃ (N : Nat) (x : α), 1 ≤ N ∧ sized t N x = .ok v0)
    (hpre : PreconditionSeq t safe ctor v0 cs) :
    1 ≤ v0.Capacity ∧
    (∀ v : Vector α, runCalls t safe ctor v0 cs = .ok v → 1 ≤ v.Capacity) ∧
    (AdmissibleSeq t safe ctor v0 cs →
      ∃ v : Vector α, runCalls t safe ctor v0 cs = .ok v ∧ 1 ≤ v.Capacity) := by
  unfold Capacity
  have hinit : 1 ≤ v0.m_Capacity ∧ v0.m_Size ≤ v0.m_Capacity ∧ v0.Allocated t := by
    rcases hstart with h | ⟨N, x, hN, h⟩
    · rw [h]
      exact ⟨Nat.le_refl 1, Nat.zero_le 1, Allocated_new t⟩
    · obtain ⟨hg, h1, h2, h3⟩ := sized_returns t N x v0 h
      refine ⟨by omega, by omega, by omega, ?_⟩
      rw [h2]
      exact hg
  obtain ⟨h1, h2, hb⟩ := hinit
  have hpart : ∀ v : Vector α, runCalls t safe ctor v0 cs = .ok v → 1 ≤ v.m_Capacity :=
    fun v h => runCalls_capacity_pos t safe ctor cs v0 v h1 hpre h
  refine ⟨h1, hpart, ?_⟩
  intro hadm
  obtain ⟨v, hv⟩ := runCalls_admissible_ok t safe ctor cs v0 hb h1 h2 hadm
  exact ⟨v, hv, hpart v hv⟩

/-- Witness of `capacity_ge_one` (C8): two pushes, a fast erase, a reserve and an
emplace on the default-constructed vector. -/
theorem capacity_ge_one_witness :
    ∃ v : Vector Nat,
      runCalls Platform.u64 true (fun n : Nat => n + 1) new
        [Call.push (.outside 1), Call.pushMove (.outside 2), Call.erase true 0,
          Call.reserve 8, Call.emplace (.outside 3)]
        = .ok v ∧ 1 ≤ v.Capacity :=
  (capacity_ge_one Platform.u64 true (fun n : Nat => n + 1) new
    [Call.push (.outside 1), Call.pushMove (.outside 2), Call.erase true 0,
      Call.reserve 8, Call.emplace (.outside 3)]
    (Or.inl rfl) (by decide)).2.2 (by decide)

/-- C8 as stated fails for the sized constructor with count 0: `Vector(0, x)` returns
with `Capacity() == 0`. -/
theorem capacity_zero_after_sized_zero :
    ∃ v : Vector Nat, sized Platform.u64 0 0 = .ok v ∧ v.Capacity = 0 :=
  ⟨_, sized_ok Platform.u64 0 0 (by decide), rfl⟩

/-! ### C9 -/

/-- C9: for every vector (with `Size()` a `size_t` value), the loop that advances a cursor
from `begin()` by `++` until it compares equal to `end()` terminates (any fuel of at least
`Size()` increments is enough), dereferences exactly `Size()` elements, the `k`-th
dereference yielding what `At(k)` yields; and `begin() == end()` holds if and only if
`Size() == 0`. -/
theorem traverse_spec (safe : Bool) (v : Vector α) (fuel : Nat) (hr : v.Size < SIZE_RANGE)
    (hfuel : v.Size ≤ fuel) :
    ∃ visited : List (Except Fault α), traverse fuel v.begin v.end_ = some visited ∧
      visited.length = v.Size ∧
      (∀ k, k < v.Size → visited[k]? = some (At safe v k)) ∧
      (v.begin.eq v.end_ = true ↔ v.Size = 0) := by
  unfold Size SIZE_RANGE at *
  refine ⟨_, traverse_range v.m_Data v.m_Data v.m_Extent v.m_Extent v.m_Size hr fuel 0
    (Nat.zero_le _) (by omega), ?_, ?_, ?_⟩
  · simp
  · intro k hk
    rw [At_of_lt safe v k hk]
    simp only [List.getElem?_map]
    rw [List.getElem?_range' 0 1 (by omega : k < v.m_Size - 0)]
    simp only [Option.map_some', Nat.zero_add, Nat.one_mul]
    rfl
  · simp only [Iterator.eq, begin, end_, decide_eq_true_eq]
    omega

/-- Witness of `traverse_spec` (C9): the cursor walk over `Vector(3, 5)`. -/
theorem traverse_spec_witness :
    ∃ visited : List (Except Fault Nat),
      traverse 3
        (begin { m_Size := 3, m_Capacity := 3, m_Data := fun _ => some 5, m_Extent := 3 })
        (end_ { m_Size := 3, m_Capacity := 3, m_Data := fun _ => some 5, m_Extent := 3 })
          = some visited ∧
      visited.length
        = Size { m_Size := 3, m_Capacity := 3, m_Data := fun _ => some 5, m_Extent := 3 } ∧
      (∀ k, k < Size { m_Size := 3, m_Capacity := 3, m_Data := fun _ => some 5,
                       m_Extent := 3 } →
        visited[k]? = some
          (At true { m_Size := 3, m_Capacity := 3, m_Data := fun _ => some 5,
                     m_Extent := 3 } k)) ∧
      ((begin { m_Size := 3, m_Capacity := 3, m_Data := fun _ => (some 5 : Option Nat),
                m_Extent := 3 }).eq
          (end_ { m_Size := 3, m_Capacity := 3, m_Data := fun _ => some 5, m_Extent := 3 })
            = true ↔
        Size { m_Size := 3, m_Capacity := 3, m_Data := fun _ => (some 5 : Option Nat),
               m_Extent := 3 } = 0) :=
  traverse_spec true { m_Size := 3, m_Capacity := 3, m_Data := fun _ => some 5, m_Extent := 3 }
    3 (by decide) (by decide)

/-! ### C10 -/

/-- C10, amended: for every vector state with `1 <= Capacity()`, `Size() <= Capacity()`
and a block granted by the allocator for exactly `Capacity()` slots, and arguments held
outside the block: when `Size() < Capacity()` or the allocator grants the doubled block
of `2 * Capacity()` elements, `Emplace(args)` returns, `Size()` has increased by exactly
1, the returned reference designates the slot at index old `Size()`, whose value is `T`
constructed from `args`, and every element at an index below the old `Size()` is
unchanged; otherwise `Emplace` stops at the refused allocation. -/
theorem Emplace_spec {β : Type} (t : Platform α) (ctor : β → α) (safe : Bool) (v : Vector α)
    (args : β) (h1 : 1 ≤ v.Capacity) (h2 : v.Size ≤ v.Capacity) (hb : v.Allocated t) :
    ((v.Size < v.Capacity ∨ 2 * v.Capacity * t.sizeofT ≤ t.maxAlloc) →
      ∃ (v' : Vector α) (ref : Nat), Emplace t ctor v (.outside args) = .ok (v', ref) ∧
        v'.Size = v.Size + 1 ∧ ref = v.Size ∧ deref v' ref = .ok (ctor args) ∧
        At safe v' v.Size = .ok (ctor args) ∧
        ∀ i, i < v.Size → At safe v' i = At safe v i) ∧
    (¬ (v.Size < v.Capacity ∨ 2 * v.Capacity * t.sizeofT ≤ t.maxAlloc) →
      Emplace t ctor v (.outside args) = .error .BadAlloc) := by
  unfold Size Capacity at *
  have hc := hb.capacity_lt
  have hext := hb.1
  refine ⟨?_, ?_⟩
  · intro h3
    obtain ⟨v', hpush, hs, hcap', hle, hb', hd, hframe⟩ :=
      Push_effect t v (ctor args) h1 h2 hb h3
    have hidx : decr v'.m_Size = v.m_Size := by
      rw [hs, decr_of_pos (by omega) (by omega)]
      omega
    have hext' := hb'.1
    refine ⟨v', v.m_Size, ?_, hs, rfl, deref_of_some v' v.m_Size _ (by omega) hd, ?_, ?_⟩
    · rw [Emplace_outside, hpush]
      show Except.ok (v', decr v'.m_Size) = _
      rw [hidx]
    · rw [At_of_lt safe v' v.m_Size (by omega)]
      exact deref_of_some v' v.m_Size _ (by omega) hd
    · intro i hi
      rw [At_of_lt safe v' i (by omega), At_of_lt safe v i hi]
      unfold deref
      rw [readSlot_of_lt _ (by omega : i < v'.m_Extent),
        readSlot_of_lt _ (by omega : i < v.m_Extent), hframe i hi]
  · intro h3
    have hfull : v.m_Size = v.m_Capacity := by omega
    have hg : ¬ 2 * v.m_Capacity * t.sizeofT ≤ t.maxAlloc := fun hg => h3 (Or.inr hg)
    rw [Emplace_outside, Push_refused t v _ hfull hb hg]
    rfl

/-- Witness of `Emplace_spec` (C10): an element, constructed from a pair of arguments,
emplaced into the full vector with live contents `[10, 20]`, which grows it. -/
theorem Emplace_spec_witness :
    ∃ (v' : Vector Nat) (ref : Nat),
      Emplace Platform.u64 (fun p : Nat × Nat => p.1 + p.2)
        { m_Size := 2, m_Capacity := 2, m_Data := fun k => some (10 * (k + 1)), m_Extent := 2 }
        (.outside (3, 4)) = .ok (v', ref) ∧
      v'.Size = 3 ∧ ref = 2 ∧ deref v' ref = .ok 7 ∧ At true v' 2 = .ok 7 ∧
      ∀ i, i < 2 → At true v' i
        = At true { m_Size := 2, m_Capacity := 2, m_Data := fun k => some (10 * (k + 1)),
                    m_Extent := 2 } i :=
  (Emplace_spec Platform.u64 (fun p : Nat × Nat => p.1 + p.2) true
    { m_Size := 2, m_Capacity := 2, m_Data := fun k => some (10 * (k + 1)), m_Extent := 2 }
    (3, 4) (by decide) (by decide) ⟨rfl, by decide⟩).1 (Or.inr (by decide))

/-- C10 as stated fails in two ways.  After `Reserve(2 ^ 61)` on a default-constructed
vector of 8-byte elements the state has `1 <= Capacity()` and `Size() <= Capacity()`,
but the byte count `2 ^ 61 * 8` wrapped to 0 and `Emplace` constructs outside the block.
And `v.Emplace(v[0])` on the full vector `Vector(1, 5)` reads its argument after `Grow`
has released the block it refers into. -/
theorem Emplace_spec_refuted :
    (∃ v : Vector Nat, Reserve Platform.u64 false new (2 ^ 61) = .ok v ∧
      1 ≤ v.Capacity ∧ v.Size ≤ v.Capacity ∧
      Emplace Platform.u64 (fun n : Nat => n) v (.outside 1) = .error .OutOfBlock) ∧
    (∃ v : Vector Nat, sized Platform.u64 1 5 = .ok v ∧ 1 ≤ v.Capacity ∧
      v.Size ≤ v.Capacity ∧
      Emplace Platform.u64 (fun n : Nat => n) v (.slot 0) = .error .Dangling) :=
  ⟨⟨{ m_Size := 0, m_Capacity := 2 ^ 61, m_Data := rawBlock Nat, m_Extent := 0 }, rfl,
      by decide, by decide, rfl⟩,
    ⟨_, sized_ok Platform.u64 1 5 (by decide), by decide, by decide, rfl⟩⟩

/-! ### C11 -/

/-- C11: for every vector state with `Capacity() >= 1`, a `Push` (either overload) or
`Emplace` that returns leaves `Capacity()` equal to exactly twice the old capacity when
it was performed with `Size() == Capacity()`, and leaves `Capacity()` unchanged when it
was performed with `Size() < Capacity()`.  On a state with `Size() <= Capacity()` whose
block was granted for `Capacity()` slots, the insertion of a value from outside the block
does return when there is room or the allocator grants the doubled block, and stops at
the refused allocation otherwise. -/
theorem growth_doubles_when_full {β : Type} (t : Platform α) (ctor : β → α) (v : Vector α)
    (x : Ref α) (args : Ref β) (h1 : 1 ≤ v.Capacity) :
    (∀ p : Vector α × α, Push t v x = .ok p →
      (v.Size = v.Capacity → p.1.Capacity = 2 * v.Capacity) ∧
      (v.Size < v.Capacity → p.1.Capacity = v.Capacity)) ∧
    (∀ p : Vector α × α, PushMove t v x = .ok p →
      (v.Size = v.Capacity → p.1.Capacity = 2 * v.Capacity) ∧
      (v.Size < v.Capacity → p.1.Capacity = v.Capacity)) ∧
    (∀ p : Vector α × Nat, Emplace t ctor v args = .ok p →
      (v.Size = v.Capacity → p.1.Capacity = 2 * v.Capacity) ∧
      (v.Size < v.Capacity → p.1.Capacity = v.Capacity)) ∧
    (v.Allocated t → v.Size ≤ v.Capacity → ∀ (y : α) (a : β),
      ((v.Size < v.Capacity ∨ 2 * v.Capacity * t.sizeofT ≤ t.maxAlloc) →
        ∃ (v' v'' : Vector α) (ref : Nat),
          Push t v (.outside y) = .ok (v', y) ∧
          PushMove t v (.outside y) = .ok (v', t.movedFrom y) ∧
          Emplace t ctor v (.outside a) = .ok (v'', ref)) ∧
      (¬ (v.Size < v.Capacity ∨ 2 * v.Capacity * t.sizeofT ≤ t.maxAlloc) →
        Push t v (.outside y) = .error .BadAlloc ∧
        PushMove t v (.outside y) = .error .BadAlloc ∧
        Emplace t ctor v (.outside a) = .error .BadAlloc)) := by
  unfold Size Capacity at *
  have key : ∀ v' : Vector α,
      (v'.m_Size = incr v.m_Size ∧ v.m_Size < v'.m_Extent ∧
        ((v.m_Size ≠ v.m_Capacity ∧ v'.m_Capacity = v.m_Capacity ∧
            v'.m_Extent = v.m_Extent) ∨
          (v.m_Size = v.m_Capacity ∧ v'.m_Capacity = shl1 v.m_Capacity ∧
            alloc t (shl1 v.m_Capacity) = .ok v'.m_Extent))) →
      (v.m_Size = v.m_Capacity → v'.m_Capacity = 2 * v.m_Capacity) ∧
      (v.m_Size < v.m_Capacity → v'.m_Capacity = v.m_Capacity) := by
    intro v' ⟨hs, hw, hcase⟩
    obtain ⟨f1, f2, -⟩ := insert_facts t _ _ _ _ _ _ hs hw hcase
    exact ⟨fun h => (f1 h).1, fun h => f2 (by omega)⟩
  refine ⟨fun p h => key p.1 (Push_counters t v x p h),
    fun p h => key p.1 (PushMove_counters t v x p h),
    fun p h => key p.1 (Emplace_counters t ctor v args p h), ?_⟩
  intro hb hle y a
  refine ⟨?_, ?_⟩
  · intro h3
    obtain ⟨v', hp, -⟩ := Push_effect t v y h1 hle hb h3
    obtain ⟨v'', he, -⟩ := Push_effect t v (ctor a) h1 hle hb h3
    refine ⟨v', v'', decr v''.m_Size, hp, ?_, ?_⟩
    · rw [PushMove_outside, hp]
      rfl
    · rw [Emplace_outside, he]
      rfl
  · intro h3
    have hfull : v.m_Size = v.m_Capacity := by omega
    have hg : ¬ 2 * v.m_Capacity * t.sizeofT ≤ t.maxAlloc := fun hg => h3 (Or.inr hg)
    refine ⟨Push_refused t v _ hfull hb hg, ?_, ?_⟩
    · rw [PushMove_outside, Push_refused t v _ hfull hb hg]
      rfl
    · rw [Emplace_outside, Push_refused t v _ hfull hb hg]
      rfl

/-- Witness of `growth_doubles_when_full` (C11): the full vector `Vector(2, 0)`; each
insertion returns with capacity 4. -/
theorem growth_doubles_when_full_witness :
    ∃ (v' v'' : Vector Nat) (ref : Nat),
      Push Platform.u64
        { m_Size := 2, m_Capacity := 2, m_Data := fun _ => some 0, m_Extent := 2 }
        (.outside 7) = .ok (v', 7) ∧
      PushMove Platform.u64
        { m_Size := 2, m_Capacity := 2, m_Data := fun _ => some 0, m_Extent := 2 }
        (.outside 7) = .ok (v', 7) ∧
      Emplace Platform.u64 (fun n : Nat => n + 1)
        { m_Size := 2, m_Capacity := 2, m_Data := fun _ => some 0, m_Extent := 2 }
        (.outside 8) = .ok (v'', ref) ∧
      v'.Capacity = 4 ∧ v''.Capacity = 4 := by
  have h := growth_doubles_when_full Platform.u64 (fun n : Nat => n + 1)
    { m_Size := 2, m_Capacity := 2, m_Data := fun _ => some 0, m_Extent := 2 }
    (.outside 7) (.outside 8) (by decide)
  obtain ⟨v', v'', ref, hp, hm, he⟩ :=
    (h.2.2.2 ⟨rfl, by decide⟩ (Nat.le_refl 2) 7 8).1 (Or.inr (by decide))
  exact ⟨v', v'', ref, hp, hm, he, (h.1 _ hp).1 rfl, (h.2.2.1 _ he).1 rfl⟩

/-! ### C12 -/

/-- C12: for every vector state and every single `Push` (either overload), `Emplace` or
`Erase` (ordered or fast) applied to it, in either configuration: if the call returns,
`Capacity()` after it is at least `Capacity()` before it; and the call does return, on a
state with `Size() <= Capacity()` whose block was granted for `Capacity()` slots, when it
is admissible (an insertion of a value from outside the block with `Capacity() >= 1` and
room left or a doubled block the allocator grants; a fast erase of a live index; an
ordered erase of a live index that is at least 1 or the last one). -/
theorem capacity_never_shrinks {β : Type} (t : Platform α) (safe : Bool) (ctor : β → α)
    (v : Vector α) (c : Call α β) (hkind : ∀ n, c ≠ Call.reserve n) :
    (∀ v' : Vector α, c.run t safe ctor v = .ok v' → v.Capacity ≤ v'.Capacity) ∧
    (v.Allocated t → v.Size ≤ v.Capacity → (c.isInsert = true → 1 ≤ v.Capacity) →
      c.Admissible t v →
      ∃ v' : Vector α, c.run t safe ctor v = .ok v' ∧ v.Capacity ≤ v'.Capacity) := by
  refine ⟨fun v' h => run_capacity_le t safe ctor v v' c hkind h, ?_⟩
  intro hb hle hcap hadm
  obtain ⟨v', hrun, -⟩ := run_admissible_ok t safe ctor v c hb hle hcap hadm
  exact ⟨v', hrun, run_capacity_le t safe ctor v v' c hkind hrun⟩

/-- Witness of `capacity_never_shrinks` (C12): a `Push` into the full vector
`Vector(2, 0)`, which returns. -/
theorem capacity_never_shrinks_witness :
    ∃ v' : Vector Nat,
      (Call.push (.outside 7) : Call Nat Nat).run Platform.u64 true (fun n : Nat => n)
        { m_Size := 2, m_Capacity := 2, m_Data := fun _ => some 0, m_Extent := 2 } = .ok v' ∧
      Capacity { m_Size := 2, m_Capacity := 2, m_Data := fun _ => (some 0 : Option Nat),
                 m_Extent := 2 }
        ≤ v'.Capacity :=
  (capacity_never_shrinks Platform.u64 true (fun n : Nat => n)
      { m_Size := 2, m_Capacity := 2, m_Data := fun _ => some 0, m_Extent := 2 }
      (Call.push (.outside 7)) (fun _ h => Call.noConfusion h)).2 ⟨rfl, by decide⟩
      (by decide) (fun _ => by decide) ⟨rfl, Or.inr (by decide)⟩

/-! ### C13 -/

/-- C13: in the checked configuration, for every vector and index `i`, `At(i)` and
`operator[](i)` fail with an assertion if and only if `i >= Size()`; in particular
`At(Size())` fails; and for `i < Size()` they return what slot `i` holds, which is `xs[i]`
when the live contents are `xs`. -/
theorem At_checked_spec (v : Vector α) (i : Nat) :
    (At true v i = .error .AssertFailed ↔ v.Size ≤ i) ∧
    (index true v i = .error .AssertFailed ↔ v.Size ≤ i) ∧
    At true v v.Size = .error .AssertFailed ∧
    (i < v.Size → At true v i = deref v i ∧ index true v i = deref v i) ∧
    (∀ (xs : List α) (a : α), v.contents = xs.map Except.ok → xs[i]? = some a →
      At true v i = .ok a ∧ index true v i = .ok a) := by
  unfold Size
  refine ⟨At_assert_iff v i, At_assert_iff v i, (At_assert_iff v v.m_Size).mpr (Nat.le_refl _),
    fun hi => ⟨At_of_lt true v i hi, At_of_lt true v i hi⟩, ?_⟩
  intro xs a hxs ha
  obtain ⟨hlen, hslot⟩ := contents_eq v xs hxs
  obtain ⟨hc, hd⟩ := hslot i a ha
  have hi : i < v.m_Size := by
    by_contra hcon
    rw [List.getElem?_eq_none (by omega)] at ha
    cases ha
  have hat : At true v i = .ok a := by
    rw [At_of_lt true v i hi]
    exact deref_of_some v i a hc hd
  exact ⟨hat, hat⟩

/-! ### C14 -/

/-- C14: in the checked configuration, for every vector and index, `Erase(index)` under
either policy (which reports what its body, run statement by statement, reports) fails
with an assertion if and only if `index >= Size()`; when it does, the body stops at its
first statement in the state it started from, `Size()` and all slots untouched; so `Erase`
on an empty vector always fails with `Size()` still 0. -/
theorem Erase_checked_spec (t : Platform α) (fast : Bool) (v : Vector α) (index : Nat) :
    Erase t true fast v index = outcome (execStmts (EraseBody t true fast index) v) ∧
    (Erase t true fast v index = .error .AssertFailed ↔ v.Size ≤ index) ∧
    (v.Size ≤ index →
      execStmts (EraseBody t true fast index) v = (v, some Fault.AssertFailed)) ∧
    (v.Size = 0 → Erase t true fast v index = .error .AssertFailed ∧
      (execStmts (EraseBody t true fast index) v).1.Size = 0) := by
  unfold Size
  have hstop : v.m_Size ≤ index →
      execStmts (EraseBody t true fast index) v = (v, some Fault.AssertFailed) := by
    intro h
    have hi : ¬ index < v.m_Size := by omega
    simp [EraseBody, execStmts, assertStmt, hi]
  refine ⟨Erase_eq_exec t true fast v index, Erase_assert_iff t fast v index, hstop, ?_⟩
  intro h0
  refine ⟨(Erase_assert_iff t fast v index).mpr (by omega), ?_⟩
  rw [hstop (by omega)]
  exact h0

/-! ### C15 -/

/-- C15: in the checked configuration, for every vector and `newCapacity`,
`Reserve(newCapacity)` (which reports what its body, run statement by statement,
reports) fails with an assertion if and only if `newCapacity <= Capacity()`; when it does,
the body stops at its first statement, before `SetCapacity`, in the state it started
from: capacity, size and slots untouched. -/
theorem Reserve_checked_spec (t : Platform α) (v : Vector α) (newCapacity : Nat) :
    Reserve t true v newCapacity
      = outcome (execStmts (ReserveBody t true newCapacity) v) ∧
    (Reserve t true v newCapacity = .error .AssertFailed ↔ newCapacity ≤ v.Capacity) ∧
    (newCapacity ≤ v.Capacity →
      execStmts (ReserveBody t true newCapacity) v = (v, some Fault.AssertFailed)) := by
  unfold Capacity
  refine ⟨Reserve_eq_exec t true v newCapacity, Reserve_assert_iff t v newCapacity, ?_⟩
  intro h
  have hi : ¬ newCapacity > v.m_Capacity := by omega
  simp [ReserveBody, execStmts, assertStmt, hi]

/-! ### C16 -/

/-- C16: the lifetime `Vector<T> v; v.Push(x);` (the `const T &` overload) `~Vector()`
performs 0 placement constructions and 1 destructor call, on slot 0: `Push(const T &)`
assigns into the raw slot instead of constructing in it.  With `Push(T &&)` in its place
the counts are 1 and 1.  The lifetime `Vector<T> v(2, x); ~Vector()` performs 0
constructions and 2 destructor calls, on slots 0 and 1: the sized constructor assigns as
well.  The destructor itself destroys the slots `0 .. Size() - 1` in order, once each. -/
theorem copy_push_lifetime_unbalanced :
    lifetime Platform.u64 true (fun n : Nat => n) (new : Vector Nat)
        [Call.push (.outside 7)] = .ok (0, 1, [0]) ∧
    lifetime Platform.u64 true (fun n : Nat => n) (new : Vector Nat)
        [Call.pushMove (.outside 7)] = .ok (1, 1, [0]) ∧
    (sized Platform.u64 2 7 >>= fun v =>
        lifetime Platform.u64 true (fun n : Nat => n) v ([] : List (Call Nat Nat)))
      = .ok (0, 2, [0, 1]) :=
  ⟨rfl, rfl, rfl⟩

/-! ### C17 -/

/-- C17: on the vector `Vector(3, 0)` (`Size()` 3, `Capacity()` 3) the ordered `Erase(0)`
accesses, after the destructor call on slot 0, the slots 0 (read), `0 - 1` (written),
1 (read), 0 (written); `0 - 1` is `2 ^ 64 - 1` as a `size_t`, which is not below
`Capacity()`, and the call stops there with an access outside the block, in either
configuration. -/
theorem Erase_ordered_front_leaves_block :
    ∃ v : Vector Nat, sized Platform.u64 3 0 = .ok v ∧ v.Size ≤ v.Capacity ∧ 0 < v.Size ∧
      EraseAccesses v 0 = [0, 0, 2 ^ 64 - 1, 1, 0] ∧ ¬ (2 ^ 64 - 1 < v.Capacity) ∧
      Erase Platform.u64 false false v 0 = .error .OutOfBlock ∧
      Erase Platform.u64 true false v 0 = .error .OutOfBlock :=
  ⟨_, sized_ok Platform.u64 3 0 (by decide), by decide, by decide, rfl, by decide, rfl, rfl⟩

/-! ### C18 -/

/-- C18, amended: for every vector state with `1 <= Capacity()`, `Size() <= Capacity()`,
a block granted by the allocator for exactly `Capacity()` slots and live contents `xs`,
and every value `x` held outside the block: when `Size() < Capacity()` or the allocator
grants the doubled block of `2 * Capacity()` elements, `Push(x)` (either overload)
returns, and afterwards the live contents are `xs` followed by `x`: `At(i) == xs[i]` for
every `i < |xs|`, and `Size() == |xs| + 1`; otherwise both overloads stop at the refused
allocation. -/
theorem Push_appends (t : Platform α) (safe : Bool) (v : Vector α) (xs : List α) (x : α)
    (h1 : 1 ≤ v.Capacity) (h2 : v.Size ≤ v.Capacity) (hb : v.Allocated t)
    (hxs : v.contents = xs.map Except.ok) :
    ((v.Size < v.Capacity ∨ 2 * v.Capacity * t.sizeofT ≤ t.maxAlloc) →
      ∃ v' : Vector α, Push t v (.outside x) = .ok (v', x) ∧
        PushMove t v (.outside x) = .ok (v', t.movedFrom x) ∧
        v'.contents = (xs ++ [x]).map Except.ok ∧ v'.Size = xs.length + 1 ∧
        ∀ i a, xs[i]? = some a → At safe v' i = .ok a) ∧
    (¬ (v.Size < v.Capacity ∨ 2 * v.Capacity * t.sizeofT ≤ t.maxAlloc) →
      Push t v (.outside x) = .error .BadAlloc ∧
      PushMove t v (.outside x) = .error .BadAlloc) := by
  unfold Size Capacity at *
  refine ⟨?_, ?_⟩
  · intro h3
    obtain ⟨hlen, hslot⟩ := contents_eq v xs hxs
    obtain ⟨v', hpush, hs, hc, hle, hb', hd, hframe⟩ := Push_effect t v x h1 h2 hb h3
    have hext' := hb'.1
    have hslot' : ∀ k a, (xs ++ [x])[k]? = some a →
        k < v'.m_Extent ∧ v'.m_Data k = some a := by
      intro k a hk
      by_cases hlt : k < xs.length
      · rw [List.getElem?_append_left hlt] at hk
        obtain ⟨hkc, hkd⟩ := hslot k a hk
        exact ⟨by omega, by rw [hframe k (by omega)]; exact hkd⟩
      · by_cases heq : k = xs.length
        · rw [heq, List.getElem?_concat_length] at hk
          rw [← Option.some.inj hk, heq]
          exact ⟨by omega, by rw [← hlen]; exact hd⟩
        · rw [List.getElem?_eq_none (by simp; omega)] at hk
          cases hk
    refine ⟨v', hpush, by rw [PushMove_outside, hpush]; rfl,
      contents_of_slots v' (xs ++ [x]) (by simp; omega) hslot', by omega, ?_⟩
    intro i a hi
    have hlt : i < xs.length := by
      by_contra hcon
      rw [List.getElem?_eq_none (by omega)] at hi
      cases hi
    obtain ⟨hic, hid⟩ := hslot' i a (by rw [List.getElem?_append_left hlt]; exact hi)
    rw [At_of_lt safe v' i (by omega)]
    exact deref_of_some v' i a hic hid
  · intro h3
    have hfull : v.m_Size = v.m_Capacity := by omega
    have hg : ¬ 2 * v.m_Capacity * t.sizeofT ≤ t.maxAlloc := fun hg => h3 (Or.inr hg)
    refine ⟨Push_refused t v _ hfull hb hg, ?_⟩
    rw [PushMove_outside, Push_refused t v _ hfull hb hg]
    rfl

/-- Witness of `Push_appends` (C18): a push into the full vector with live contents
`[10, 20]`, which grows it. -/
theorem Push_appends_witness :
    ∃ v' : Vector Nat,
      Push Platform.u64
        { m_Size := 2, m_Capacity := 2, m_Data := fun k => some (10 * (k + 1)), m_Extent := 2 }
        (.outside 30) = .ok (v', 30) ∧
      PushMove Platform.u64
        { m_Size := 2, m_Capacity := 2, m_Data := fun k => some (10 * (k + 1)), m_Extent := 2 }
        (.outside 30) = .ok (v', Platform.u64.movedFrom 30) ∧
      v'.contents = ([10, 20] ++ [30]).map Except.ok ∧ v'.Size = [10, 20].length + 1 ∧
      ∀ i a, [10, 20][i]? = some a → At true v' i = .ok a :=
  (Push_appends Platform.u64 true
    { m_Size := 2, m_Capacity := 2, m_Data := fun k => some (10 * (k + 1)), m_Extent := 2 }
    [10, 20] 30 (by decide) (by decide) ⟨rfl, by decide⟩ rfl).1 (Or.inr (by decide))

/-- C18 as stated fails after a `Reserve` whose byte count wrapped, for 8-byte elements.
After `Reserve(2 ^ 61)` on a default-constructed vector (`2 ^ 61 * 8` is 0 as a `size_t`)
the state has `1 <= Capacity()`, `Size() <= Capacity()` and live contents `[]`, and
neither `Push` overload returns: the store is outside the block.  After
`Reserve(2 ^ 61 + 1)`, whose block has one slot, and one `Push(10)`, the live contents
are `[10]`, and the next `Push` of either overload stores outside the block. -/
theorem Push_appends_refuted :
    (∃ v : Vector Nat, Reserve Platform.u64 false new (2 ^ 61) = .ok v ∧
      1 ≤ v.Capacity ∧ v.Size ≤ v.Capacity ∧ v.contents = ([] : List Nat).map Except.ok ∧
      Push Platform.u64 v (.outside 1) = .error .OutOfBlock ∧
      PushMove Platform.u64 v (.outside 1) = .error .OutOfBlock) ∧
    (∃ v : Vector Nat,
      runCalls Platform.u64 false (fun n : Nat => n) new
        [Call.reserve (2 ^ 61 + 1), Call.push (.outside 10)] = .ok v ∧
      1 ≤ v.Capacity ∧ v.Size ≤ v.Capacity ∧ v.contents = [10].map Except.ok ∧
      Push Platform.u64 v (.outside 1) = .error .OutOfBlock ∧
      PushMove Platform.u64 v (.outside 1) = .error .OutOfBlock) :=
  ⟨⟨{ m_Size := 0, m_Capacity := 2 ^ 61, m_Data := rawBlock Nat, m_Extent := 0 }, rfl,
      by decide, by decide, rfl, rfl, rfl⟩,
    ⟨{ m_Size := 1, m_Capacity := 2 ^ 61 + 1,
       m_Data := fun k => if k = 0 then some 10 else rawBlock Nat k, m_Extent := 1 }, rfl,
      by decide, by decide, rfl, rfl, rfl⟩⟩

/-! ### C19 -/

/-- C19: for every non-empty vector with live contents `xs` (and `Size()` a `size_t`
value), the ordered `Erase(Size() - 1)` and the fast `Erase<true>(Size() - 1)` return the
same state, in which `Size() == |xs| - 1`, `Capacity()` is unchanged and the live contents
are `xs` without its last element. -/
theorem Erase_last_policies_agree (t : Platform α) (safe : Bool) (v : Vector α) (xs : List α)
    (hxs : v.contents = xs.map Except.ok) (hne : xs ≠ []) (hr : v.Size < SIZE_RANGE) :
    ∃ v' : Vector α, Erase t safe false v (decr v.Size) = .ok v' ∧
      Erase t safe true v (decr v.Size) = .ok v' ∧
      v'.Size = xs.length - 1 ∧ v'.Capacity = v.Capacity ∧
      v'.contents = xs.dropLast.map Except.ok := by
  unfold Size Capacity SIZE_RANGE at *
  obtain ⟨hlen, hslot⟩ := contents_eq v xs hxs
  have hpos : 1 ≤ xs.length := by
    cases xs with
    | nil => exact absurd rfl hne
    | cons a t => simp
  have hle : v.m_Size ≤ v.m_Extent := contents_in_block v xs hxs
  have hdec : decr v.m_Size = v.m_Size - 1 := decr_of_pos (by omega) (by omega)
  refine ⟨_, Erase_ordered_last t safe v (by omega) hle,
    Erase_fast_last t safe v (by omega) hle, ?_, rfl, ?_⟩
  · show decr v.m_Size = xs.length - 1
    omega
  · apply contents_of_slots
    · show decr v.m_Size = xs.dropLast.length
      rw [List.length_dropLast]
      omega
    · intro k a hk
      rw [List.getElem?_dropLast] at hk
      by_cases hlt : k < xs.length - 1
      · rw [if_pos hlt] at hk
        exact hslot k a hk
      · rw [if_neg hlt] at hk
        cases hk

/-- Witness of `Erase_last_policies_agree` (C19): the four-slot vector with live contents
`[10, 20, 30, 40]`. -/
theorem Erase_last_policies_agree_witness :
    ∃ v' : Vector Nat,
      Erase Platform.u64 true false
        { m_Size := 4, m_Capacity := 4, m_Data := fun k => some (10 * (k + 1)), m_Extent := 4 }
        (decr (Size { m_Size := 4, m_Capacity := 4,
                      m_Data := fun k => (some (10 * (k + 1)) : Option Nat),
                      m_Extent := 4 })) = .ok v' ∧
      Erase Platform.u64 true true
        { m_Size := 4, m_Capacity := 4, m_Data := fun k => some (10 * (k + 1)), m_Extent := 4 }
        (decr (Size { m_Size := 4, m_Capacity := 4,
                      m_Data := fun k => (some (10 * (k + 1)) : Option Nat),
                      m_Extent := 4 })) = .ok v' ∧
      v'.Size = [10, 20, 30, 40].length - 1 ∧
      v'.Capacity = Capacity { m_Size := 4, m_Capacity := 4,
                               m_Data := fun k => (some (10 * (k + 1)) : Option Nat),
                               m_Extent := 4 } ∧
      v'.contents = [10, 20, 30, 40].dropLast.map Except.ok :=
  Erase_last_policies_agree Platform.u64 true
    { m_Size := 4, m_Capacity := 4, m_Data := fun k => some (10 * (k + 1)), m_Extent := 4 }
    [10, 20, 30, 40] rfl (by decide) (by decide)

/-! ### C20 -/

/-- C20, amended: for every vector state with `Size() <= Capacity()` whose block holds the
`Size()` live elements, and every `n > Capacity()` whose `n` elements the allocator
grants, `Reserve(n)` returns, and afterwards every sequence of at most `n - Size()` `Push`
or `Emplace` calls of values from outside the block returns and leaves `Capacity() == n`;
once `Size()` has reached `n`, the next `Push` (either overload) returns and changes
`Capacity()` to `2 n` when the allocator grants the block of `2 n` elements, and stops at
the refused allocation otherwise. -/
theorem Reserve_prepays {β : Type} (t : Platform α) (safe : Bool) (ctor : β → α)
    (v : Vector α) (n : Nat) (hle : v.Size ≤ v.Capacity) (hn : n > v.Capacity)
    (hext : v.Size ≤ v.m_Extent) (hgrant : n * t.sizeofT ≤ t.maxAlloc) :
    ∃ v1 : Vector α, Reserve t safe v n = .ok v1 ∧
      ∀ cs : List (Call α β), (∀ c ∈ cs, c.isInsert = true ∧ c.byValue = true) →
        cs.length ≤ n - v.Size →
        ∃ v2 : Vector α, runCalls t safe ctor v1 cs = .ok v2 ∧ v2.Capacity = n ∧
          v2.Size = v.Size + cs.length ∧
          (cs.length = n - v.Size → ∀ x : α,
            (2 * n * t.sizeofT ≤ t.maxAlloc →
              ∃ v3 : Vector α, Push t v2 (.outside x) = .ok (v3, x) ∧
                PushMove t v2 (.outside x) = .ok (v3, t.movedFrom x) ∧
                v3.Capacity = 2 * n) ∧
            (¬ 2 * n * t.sizeofT ≤ t.maxAlloc →
              Push t v2 (.outside x) = .error .BadAlloc ∧
              PushMove t v2 (.outside x) = .error .BadAlloc)) := by
  unfold Size Capacity at *
  have hres : Reserve t safe v n = .ok
      { m_Size := v.m_Size, m_Capacity := n,
        m_Data := fun k => if k < v.m_Size then v.m_Data k else none, m_Extent := n } := by
    unfold Reserve
    simp only [hn, decide_True, Bool.not_true, Bool.and_false, Bool.false_eq_true, if_false]
    exact SetCapacity_ok t v n hext (by omega) hgrant
  refine ⟨_, hres, ?_⟩
  intro cs hins hlen
  obtain ⟨v2, hrun, hc2, hs2, hb2⟩ := inserts_without_growth t safe ctor cs
    ({ m_Size := v.m_Size, m_Capacity := n,
       m_Data := fun k => if k < v.m_Size then v.m_Data k else none,
       m_Extent := n } : Vector α)
    hins ⟨rfl, hgrant⟩ (by show v.m_Size + cs.length ≤ n; omega)
  have hc2' : v2.m_Capacity = n := hc2
  have hs2' : v2.m_Size = v.m_Size + cs.length := hs2
  refine ⟨v2, hrun, hc2', hs2', ?_⟩
  intro hfull x
  have hfull' : v2.m_Size = v2.m_Capacity := by omega
  refine ⟨?_, ?_⟩
  · intro hg
    have h3 : v2.m_Size < v2.m_Capacity ∨ 2 * v2.m_Capacity * t.sizeofT ≤ t.maxAlloc := by
      right
      rw [hc2']
      exact hg
    obtain ⟨v3, hp, -, hc3, -⟩ := Push_effect t v2 x (by omega) (by omega) hb2 h3
    refine ⟨v3, hp, by rw [PushMove_outside, hp]; rfl, ?_⟩
    rw [hc3, if_pos hfull', hc2']
  · intro hg
    have hg' : ¬ 2 * v2.m_Capacity * t.sizeofT ≤ t.maxAlloc := by
      rw [hc2']
      exact hg
    refine ⟨Push_refused t v2 _ hfull' hb2 hg', ?_⟩
    rw [PushMove_outside, Push_refused t v2 _ hfull' hb2 hg']
    rfl

/-- Witness of `Reserve_prepays` (C20): the full vector with live contents `[10, 20]`
reserved to 4 slots. -/
theorem Reserve_prepays_witness :
    ∃ v1 : Vector Nat,
      Reserve Platform.u64 true
        { m_Size := 2, m_Capacity := 2, m_Data := fun k => some (10 * (k + 1)), m_Extent := 2 }
        4 = .ok v1 ∧
      ∀ cs : List (Call Nat Nat), (∀ c ∈ cs, c.isInsert = true ∧ c.byValue = true) →
        cs.length ≤ 4 - 2 →
        ∃ v2 : Vector Nat,
          runCalls Platform.u64 true (fun k : Nat => k) v1 cs = .ok v2 ∧ v2.Capacity = 4 ∧
          v2.Size = 2 + cs.length ∧
          (cs.length = 4 - 2 → ∀ x : Nat,
            (2 * 4 * Platform.u64.sizeofT ≤ Platform.u64.maxAlloc →
              ∃ v3 : Vector Nat, Push Platform.u64 v2 (.outside x) = .ok (v3, x) ∧
                PushMove Platform.u64 v2 (.outside x) = .ok (v3, Platform.u64.movedFrom x) ∧
                v3.Capacity = 2 * 4) ∧
            (¬ 2 * 4 * Platform.u64.sizeofT ≤ Platform.u64.maxAlloc →
              Push Platform.u64 v2 (.outside x) = .error .BadAlloc ∧
              PushMove Platform.u64 v2 (.outside x) = .error .BadAlloc)) :=
  Reserve_prepays Platform.u64 true (fun k : Nat => k)
    { m_Size := 2, m_Capacity := 2, m_Data := fun k => some (10 * (k + 1)), m_Extent := 2 }
    4 (by decide) (by decide) (by decide) (by decide)

/-- C20 as stated fails for `n = 2 ^ 61` on a default-constructed vector of 8-byte
elements: `Size() <= Capacity()` and `2 ^ 61 > Capacity()`, `Reserve(2 ^ 61)` returns
with `Capacity() == 2 ^ 61` over a block of `2 ^ 61 * 8` bytes, which is 0 as a `size_t`,
and the first of the next `2 ^ 61` `Push` or `Emplace` calls stores outside the block. -/
theorem Reserve_prepays_refuted :
    ∃ v1 : Vector Nat, (new : Vector Nat).Size ≤ (new : Vector Nat).Capacity ∧
      2 ^ 61 > (new : Vector Nat).Capacity ∧
      alloc Platform.u64 (2 ^ 61) = .ok 0 ∧
      Reserve Platform.u64 false new (2 ^ 61) = .ok v1 ∧ v1.Capacity = 2 ^ 61 ∧
      Push Platform.u64 v1 (.outside 1) = .error .OutOfBlock ∧
      PushMove Platform.u64 v1 (.outside 1) = .error .OutOfBlock ∧
      Emplace Platform.u64 (fun n : Nat => n) v1 (.outside 1) = .error .OutOfBlock :=
  ⟨{ m_Size := 0, m_Capacity := 2 ^ 61, m_Data := rawBlock Nat, m_Extent := 0 },
    by decide, by decide, rfl, rfl, rfl, rfl, rfl, rfl⟩

end Vector

end std2
